import Mathlib

/-!
Verification development for the home_ai repository.

The subject is the orchestration pipeline and the cross-hop SSE relay:
`src/orchestrator/app/orchestrator.py` and `services.py` (pipeline and
backend adapters), `src/api_gateway/app/services.py` (gateway relay),
`src/telegram_bot/app/streaming.py` (line decoder and the message
accumulator), and `src/llm_service/app/services.py` (text backend stream).

Modelling conventions.  All text is `Str := List Char`; machine effects
(HTTP calls, exceptions) are explicit parameters: every backend call's
outcome is an input to the embedded function, an `Option`/custom sum
describing either the returned data or the raised failure.  Python's
`json.dumps(..., ensure_ascii=False)` / `json.loads` (standard library,
external to the repository) are modelled by an executable serializer and
parser over a `Jval` type mirroring the JSON values the system exchanges.
-/

/-- Text is modelled as a list of characters, the way Python strings behave
under slicing and concatenation. -/
abbrev Str := List Char

/-- Coerce a Lean string literal to the `Str` model. -/
def sl (s : String) : Str := s.toList

/-- The ASCII whitespace set of Python's `str.strip()` (the model restricts
Python's Unicode whitespace to the ASCII subset, which covers every string
the system manipulates). -/
def pySpace (c : Char) : Bool :=
  c.toNat = 32 || (9 ≤ c.toNat && c.toNat ≤ 13)

/-- Trailing-whitespace removal, recursively: keep a character when something
non-whitespace survives to its right, or when it is itself non-whitespace. -/
def stripRight : Str → Str
  | [] => []
  | c :: r =>
    match stripRight r with
    | [] => if pySpace c then [] else [c]
    | s => c :: s

/-- Python `str.strip()`: drop leading and trailing whitespace. -/
def strip (s : Str) : Str := stripRight (s.dropWhile pySpace)

/-- Python `str.startswith(p)` on the character-list model. -/
def startsWith : Str → Str → Bool
  | [], _ => true
  | _ :: _, [] => false
  | p :: ps, c :: cs => p == c && startsWith ps cs

/-- Split at every newline character, keeping empty segments: `n` newlines
give `n + 1` segments. -/
def splitNl : Str → List Str
  | [] => [[]]
  | c :: r =>
    if c = '\n' then [] :: splitNl r
    else
      match splitNl r with
      | p :: ps => (c :: p) :: ps
      | [] => [[c]]

/-- Line iteration as `aiter_lines` performs it on `\n`-terminated SSE text:
split at newlines and drop the empty segment a trailing newline leaves. -/
def splitLines (s : Str) : List Str :=
  let ps := splitNl s
  if ps.getLast? = some [] then ps.dropLast else ps

/-- Python `buffer.split("\n\n", 1)`: locate the first `"\n\n"`; `some (pre,
rest)` splits around the first occurrence, `none` means no occurrence. -/
def splitOnceNN : Str → Option (Str × Str)
  | '\n' :: '\n' :: r => some ([], r)
  | c :: r => (splitOnceNN r).map (fun pr => (c :: pr.1, pr.2))
  | [] => none

/-- Python `"\n\n" in buffer`. -/
def containsNN (s : Str) : Bool := (splitOnceNN s).isSome

/-- True when the string has no line break character (`\n` or `\r`). -/
def noBreak (s : Str) : Bool := !(s.any (fun c => c == '\n' || c == '\r'))

/-- Decimal digits of `n`, most significant first; `fuel` only bounds the
recursion and any `fuel ≥ n` is exact. -/
def natDigitsF : Nat → Nat → Str
  | _, 0 => []
  | n, fuel + 1 =>
    if n < 10 then [Char.ofNat ('0'.toNat + n)]
    else natDigitsF (n / 10) fuel ++ [Char.ofNat ('0'.toNat + n % 10)]

/-- Decimal rendering of a natural number, as Python's `str(n)`. -/
def natToDec (n : Nat) : Str := natDigitsF n (n + 1)

/-- Rendering of an integer: optional minus sign, then decimal digits. -/
def intToDec (i : Int) : Str :=
  (if i < 0 then ['-'] else []) ++ natToDec i.natAbs

/-- Python `sep.join(parts)`. -/
def joinWith (sep : Str) : List Str → Str
  | [] => []
  | [p] => p
  | p :: ps => p ++ sep ++ joinWith sep ps

theorem startsWith_append (p r : Str) : startsWith p (p ++ r) = true := by
  induction p with
  | nil => rfl
  | cons c cs ih => simp [startsWith, ih]

theorem splitNl_append_of_noBreak (a : Str) (r : Str) (h : noBreak a = true) :
    splitNl (a ++ '\n' :: r) = a :: splitNl r := by
  induction a with
  | nil => simp [splitNl]
  | cons c cs ih =>
    simp only [noBreak, List.any_cons, Bool.not_eq_true', Bool.or_eq_false_iff] at h
    have hc : ¬ (c = '\n') := by
      intro hc; subst hc; simp at h
    have hcs : noBreak cs = true := by
      simp [noBreak, h.2]
    simp [splitNl, hc, ih hcs]

theorem dropWhile_pySpace_head (s : Str) :
    ∀ c ∈ (s.dropWhile pySpace).head?, pySpace c = false := by
  induction s with
  | nil => intro c hc; simp [List.dropWhile] at hc
  | cons a t ih =>
    intro c hc
    by_cases ha : pySpace a
    · rw [List.dropWhile_cons_of_pos ha] at hc
      exact ih c hc
    · rw [List.dropWhile_cons_of_neg ha] at hc
      simp only [List.head?_cons, Option.mem_def, Option.some.injEq] at hc
      subst hc
      simpa using ha

theorem stripRight_head (l : Str) :
    stripRight l = [] ∨ (stripRight l).head? = l.head? := by
  cases l with
  | nil => exact Or.inl rfl
  | cons c r =>
    cases h : stripRight r with
    | nil =>
      by_cases hc : pySpace c
      · exact Or.inl (by simp [stripRight, h, hc])
      · exact Or.inr (by simp [stripRight, h, hc])
    | cons x t => exact Or.inr (by simp [stripRight, h])

theorem stripRight_idem (l : Str) : stripRight (stripRight l) = stripRight l := by
  induction l with
  | nil => rfl
  | cons c r ih =>
    cases h : stripRight r with
    | nil =>
      by_cases hc : pySpace c
      · simp [stripRight, h, hc]
      · simp [stripRight, h, hc]
    | cons x t =>
      rw [h] at ih
      have h2 : stripRight (c :: r) = c :: x :: t := by
        rw [show stripRight (c :: r) =
              (match stripRight r with
               | [] => if pySpace c = true then [] else [c]
               | s => c :: s) from rfl, h]
      rw [h2]
      rw [show stripRight (c :: x :: t) =
            (match stripRight (x :: t) with
             | [] => if pySpace c = true then [] else [c]
             | s => c :: s) from rfl, ih]

theorem strip_idem (s : Str) : strip (strip s) = strip s := by
  unfold strip
  rcases stripRight_head (s.dropWhile pySpace) with h | h
  · simp [h, List.dropWhile, stripRight]
  · cases hv : stripRight (s.dropWhile pySpace) with
    | nil => simp [List.dropWhile, stripRight]
    | cons x t =>
      rw [hv] at h
      have hx : pySpace x = false := by
        apply dropWhile_pySpace_head s
        rw [← h]
        simp
      rw [List.dropWhile_cons_of_neg (by simp [hx])]
      rw [← hv, stripRight_idem]

/-!
## JSON values

`Jval` mirrors the JSON payloads the services exchange (Python dicts, lists,
strings, ints, bools, None).  `dumps` models `json.dumps(.., ensure_ascii=False)`
with its default separators `", "` and `": "`; `jsonLoads` models `json.loads`
restricted to this grammar (integer numerals: the only numbers the system
serializes).  Both are executable, and the round-trip is proved below.
-/

mutual
inductive Jval where
  | null : Jval
  | jb : Bool → Jval
  | ji : Int → Jval
  | js : Str → Jval
  | ja : Jarr → Jval
  | jo : Jobj → Jval
inductive Jarr where
  | anil : Jarr
  | acons : Jval → Jarr → Jarr
inductive Jobj where
  | onil : Jobj
  | ocons : Str → Jval → Jobj → Jobj
end

/-- Lower-case hex digit character for `n < 16`. -/
def escHex (n : Nat) : Char :=
  if n < 10 then Char.ofNat ('0'.toNat + n) else Char.ofNat ('a'.toNat + (n - 10))

/-- JSON escaping of one character, as `json.dumps(..., ensure_ascii=False)`
performs it: the two mandatory escapes, the five short control escapes, a
`\u00xx` escape for the remaining control characters, and everything else raw. -/
def escChar (c : Char) : Str :=
  if c = '"' then ['\\', '"']
  else if c = '\\' then ['\\', '\\']
  else if c = '\n' then ['\\', 'n']
  else if c = '\r' then ['\\', 'r']
  else if c = '\t' then ['\\', 't']
  else if c = Char.ofNat 8 then ['\\', 'b']
  else if c = Char.ofNat 12 then ['\\', 'f']
  else if c.toNat < 32 then
    ['\\', 'u', '0', '0', escHex (c.toNat / 16), escHex (c.toNat % 16)]
  else [c]

/-- A serialized JSON string: quote, escaped body, quote. -/
def escStr (s : Str) : Str := '"' :: (s.flatMap escChar ++ ['"'])

mutual
/-- Serialize a JSON value (models `json.dumps` with default separators). -/
def dumps : Jval → Str
  | .null => ['n', 'u', 'l', 'l']
  | .jb true => ['t', 'r', 'u', 'e']
  | .jb false => ['f', 'a', 'l', 's', 'e']
  | .ji i => intToDec i
  | .js s => escStr s
  | .ja .anil => ['[', ']']
  | .ja (.acons v t) => '[' :: (dumpsA (.acons v t) ++ [']'])
  | .jo .onil => ['{', '}']
  | .jo (.ocons k v t) => '{' :: (dumpsO (.ocons k v t) ++ ['}'])
/-- Comma-space separated serialization of the elements of an array. -/
def dumpsA : Jarr → Str
  | .anil => []
  | .acons v .anil => dumps v
  | .acons v (.acons w t) => dumps v ++ ',' :: ' ' :: dumpsA (.acons w t)
/-- Comma-space separated serialization of the members of an object. -/
def dumpsO : Jobj → Str
  | .onil => []
  | .ocons k v .onil => escStr k ++ ':' :: ' ' :: dumps v
  | .ocons k v (.ocons k2 v2 t) =>
    escStr k ++ ':' :: ' ' :: dumps v ++ ',' :: ' ' :: dumpsO (.ocons k2 v2 t)
end

mutual
/-- Node count of a value; a fuel bound for the parser. -/
def sizeJ : Jval → Nat
  | .null => 1
  | .jb _ => 1
  | .ji _ => 1
  | .js _ => 1
  | .ja a => 1 + sizeA a
  | .jo o => 1 + sizeO o
def sizeA : Jarr → Nat
  | .anil => 1
  | .acons v t => 1 + sizeJ v + sizeA t
def sizeO : Jobj → Nat
  | .onil => 1
  | .ocons _ v t => 1 + sizeJ v + sizeO t
end

/-- ASCII decimal digit test (`'0' ≤ c ≤ '9'`). -/
def isDigitC (c : Char) : Bool := '0' ≤ c && c ≤ '9'

/-- Greedily take a run of decimal digits. -/
def takeDigits : Str → Str × Str
  | c :: cs =>
    if isDigitC c then
      let p := takeDigits cs
      (c :: p.1, p.2)
    else ([], c :: cs)
  | [] => ([], [])

/-- Value of a digit run, most significant first. -/
def digitsToNat (ds : Str) : Nat :=
  ds.foldl (fun a c => a * 10 + (c.toNat - '0'.toNat)) 0

/-- Membership in the JSON insignificant-whitespace set. -/
def jsonWs (c : Char) : Bool := c == '\t' || c == '\n' || c == '\x0d' || c == ' '

/-- Whitespace skipping of the JSON parser. -/
def skipWs (s : Str) : Str := s.dropWhile jsonWs

/-- Hex digit value, accepting both letter cases. -/
def hexValC (c : Char) : Option Nat :=
  let n := c.toNat
  if 48 ≤ n ∧ n ≤ 57 then some (n - 48)
  else if 97 ≤ n ∧ n ≤ 102 then some (n - 87)
  else if 65 ≤ n ∧ n ≤ 70 then some (n - 55)
  else none

/-- Single-character JSON unescape table. -/
def unescC (e : Char) : Option Char :=
  if e = 'n' then some '\n'
  else if e = 't' then some '\t'
  else if e = 'r' then some '\x0d'
  else if e = 'b' then some (Char.ofNat 8)
  else if e = 'f' then some (Char.ofNat 12)
  else if e = '"' then some '"'
  else if e = '\\' then some '\\'
  else if e = '/' then some '/'
  else none

/-- Parse a JSON string body after the opening quote, accumulating in reverse. -/
def parseStrBody (acc : Str) : Str → Option (Str × Str)
  | '"' :: rest => some (acc.reverse, rest)
  | '\\' :: 'u' :: a :: b :: c :: d :: rest =>
    (match hexValC a, hexValC b, hexValC c, hexValC d with
     | some va, some vb, some vc, some vd =>
       parseStrBody (Char.ofNat (((va * 16 + vb) * 16 + vc) * 16 + vd) :: acc) rest
     | _, _, _, _ => none)
  | '\\' :: e :: rest =>
    (match unescC e with
     | some ch => parseStrBody (ch :: acc) rest
     | none => none)
  | c :: rest => parseStrBody (c :: acc) rest
  | [] => none

/-- Parse an integer numeral: optional minus sign, then a digit run. -/
def parseIntTok : Str → Option (Int × Str)
  | '-' :: r =>
    let p := takeDigits r
    if p.1 = [] then none else some (-(digitsToNat p.1 : Int), p.2)
  | cs =>
    let p := takeDigits cs
    if p.1 = [] then none else some ((digitsToNat p.1 : Int), p.2)

mutual
/-- Recursive-descent JSON value parser; `fuel` only bounds the recursion
depth (models the fuel-free `json.loads`, which cannot loop on finite input). -/
def parseVal : Nat → Str → Option (Jval × Str)
  | 0, _ => none
  | fuel + 1, cs =>
    match skipWs cs with
    | 'n' :: 'u' :: 'l' :: 'l' :: r => some (.null, r)
    | 't' :: 'r' :: 'u' :: 'e' :: r => some (.jb true, r)
    | 'f' :: 'a' :: 'l' :: 's' :: 'e' :: r => some (.jb false, r)
    | '"' :: r => (parseStrBody [] r).map (fun p => (.js p.1, p.2))
    | '[' :: r =>
      (if (skipWs r).head? = some ']' then some (.ja .anil, (skipWs r).tail)
       else (parseItems fuel (skipWs r)).map (fun p => (.ja p.1, p.2)))
    | '{' :: r =>
      (if (skipWs r).head? = some '}' then some (.jo .onil, (skipWs r).tail)
       else (parseFields fuel (skipWs r)).map (fun p => (.jo p.1, p.2)))
    | c :: r =>
      if c = '-' ∨ isDigitC c then (parseIntTok (c :: r)).map (fun p => (.ji p.1, p.2))
      else none
    | [] => none
/-- Parse the non-empty comma-separated element list of an array, including
the closing bracket. -/
def parseItems : Nat → Str → Option (Jarr × Str)
  | 0, _ => none
  | fuel + 1, cs =>
    (parseVal fuel cs).bind (fun p =>
      if (skipWs p.2).head? = some ',' then
        (parseItems fuel (skipWs (skipWs p.2).tail)).map (fun q => (.acons p.1 q.1, q.2))
      else if (skipWs p.2).head? = some ']' then some (.acons p.1 .anil, (skipWs p.2).tail)
      else none)
/-- Parse the non-empty member list of an object, including the closing brace. -/
def parseFields : Nat → Str → Option (Jobj × Str)
  | 0, _ => none
  | fuel + 1, cs =>
    if cs.head? = some '"' then
      (parseStrBody [] cs.tail).bind (fun pk =>
        if (skipWs pk.2).head? = some ':' then
          (parseVal fuel (skipWs (skipWs pk.2).tail)).bind (fun pv =>
            if (skipWs pv.2).head? = some ',' then
              (parseFields fuel (skipWs (skipWs pv.2).tail)).map
                (fun q => (.ocons pk.1 pv.1 q.1, q.2))
            else if (skipWs pv.2).head? = some '}' then
              some (.ocons pk.1 pv.1 .onil, (skipWs pv.2).tail)
            else none)
        else none)
    else none
end

/-- Parse a complete JSON document (models `json.loads`): one value, then
nothing but whitespace.  The fuel is ample for any document of this length. -/
def jsonLoads (s : Str) : Option Jval :=
  match parseVal (2 * s.length + 2) s with
  | some p => if skipWs p.2 = [] then some p.1 else none
  | none => none

deriving instance DecidableEq for Jval

/-- The decimal digit character of `k < 10` carries value `k` and passes the
digit test. -/
theorem digit_char_spec : ∀ k < 10,
    (Char.ofNat ('0'.toNat + k)).toNat - '0'.toNat = k
    ∧ isDigitC (Char.ofNat ('0'.toNat + k)) = true := by decide

/-- Extra fuel is harmless: any fuel above `n` renders `n` exactly. -/
theorem natDigitsF_fuel (n : Nat) : ∀ fuel, n < fuel → natDigitsF n fuel = natToDec n := by
  induction n using Nat.strongRecOn with
  | _ n ih =>
    intro fuel hf
    match fuel, hf with
    | fuel + 1, hf =>
      by_cases h10 : n < 10
      · simp [natDigitsF, natToDec, h10]
      · have hdiv : n / 10 < n := Nat.div_lt_self (by omega) (by omega)
        have h1 : natDigitsF n (fuel + 1)
            = natDigitsF (n / 10) fuel ++ [Char.ofNat ('0'.toNat + n % 10)] := by
          simp [natDigitsF, h10]
        have h2 : natToDec n = natDigitsF (n / 10) n ++ [Char.ofNat ('0'.toNat + n % 10)] := by
          simp [natToDec, natDigitsF, h10]
        rw [h1, h2, ih (n / 10) hdiv fuel (by omega), ih (n / 10) hdiv n (by omega)]

/-- One-step unfolding of the decimal rendering. -/
theorem natToDec_unfold (n : Nat) :
    natToDec n = if n < 10 then [Char.ofNat ('0'.toNat + n)]
                 else natToDec (n / 10) ++ [Char.ofNat ('0'.toNat + n % 10)] := by
  by_cases h10 : n < 10
  · simp [natToDec, natDigitsF, h10]
  · have hdiv : n / 10 < n := Nat.div_lt_self (by omega) (by omega)
    have h1 : natToDec n = natDigitsF (n / 10) n ++ [Char.ofNat ('0'.toNat + n % 10)] := by
      rw [show natToDec n = natDigitsF n (n + 1) from rfl]
      simp [natDigitsF, h10]
    rw [h1, natDigitsF_fuel (n / 10) n (by omega), if_neg h10]

theorem natToDec_ne_nil (n : Nat) : natToDec n ≠ [] := by
  rw [natToDec_unfold]
  by_cases h10 : n < 10 <;> simp [h10]

theorem natToDec_digits (n : Nat) : ∀ c ∈ natToDec n, isDigitC c = true := by
  induction n using Nat.strongRecOn with
  | _ n ih =>
    rw [natToDec_unfold]
    by_cases h10 : n < 10
    · simp only [h10, if_true, List.mem_singleton]
      rintro c rfl
      exact (digit_char_spec n h10).2
    · simp only [h10, if_false, List.mem_append, List.mem_singleton]
      rintro c (hc | rfl)
      · exact ih (n / 10) (Nat.div_lt_self (by omega) (by omega)) c hc
      · exact (digit_char_spec (n % 10) (Nat.mod_lt _ (by omega))).2

theorem natToDec_head (n : Nat) :
    ∃ c t, natToDec n = c :: t ∧ isDigitC c = true := by
  cases h : natToDec n with
  | nil => exact absurd h (natToDec_ne_nil n)
  | cons c t =>
    refine ⟨c, t, rfl, natToDec_digits n c ?_⟩
    rw [h]; simp

theorem digitsToNat_natToDec (n : Nat) : digitsToNat (natToDec n) = n := by
  induction n using Nat.strongRecOn with
  | _ n ih =>
    rw [natToDec_unfold]
    by_cases h10 : n < 10
    · simp only [h10, if_true, digitsToNat, List.foldl_cons, List.foldl_nil]
      rw [(digit_char_spec n h10).1]
      omega
    · simp only [h10, if_false, digitsToNat, List.foldl_append, List.foldl_cons, List.foldl_nil]
      have := ih (n / 10) (Nat.div_lt_self (by omega) (by omega))
      rw [show (natToDec (n / 10)).foldl (fun a c => a * 10 + (c.toNat - '0'.toNat)) 0 = n / 10
            from this]
      rw [(digit_char_spec (n % 10) (Nat.mod_lt _ (by omega))).1]
      omega

/-- A string that cannot extend a digit run: empty or headed by a non-digit. -/
def notDigitStart : Str → Bool
  | [] => true
  | c :: _ => !isDigitC c

theorem takeDigits_stop (rest : Str) (h : notDigitStart rest = true) :
    takeDigits rest = ([], rest) := by
  cases rest with
  | nil => rfl
  | cons c t =>
    simp only [notDigitStart, Bool.not_eq_true'] at h
    simp [takeDigits, h]

theorem takeDigits_run (ds : Str) (hds : ∀ c ∈ ds, isDigitC c = true)
    (rest : Str) (hrest : notDigitStart rest = true) :
    takeDigits (ds ++ rest) = (ds, rest) := by
  induction ds with
  | nil => simpa using takeDigits_stop rest hrest
  | cons c t ih =>
    have hc : isDigitC c = true := hds c (List.mem_cons_self c t)
    have hrec : takeDigits (t ++ rest) = (t, rest) :=
      ih (fun x hx => hds x (List.mem_cons_of_mem c hx))
    rw [List.cons_append]
    simp only [takeDigits, hc, hrec, if_true]

/-- Digit characters collide with none of the JSON structural characters. -/
theorem digit_char_ne (c : Char) (h : isDigitC c = true) :
    c ≠ '-' ∧ c ≠ ']' ∧ c ≠ '}' ∧ c ≠ ',' ∧ c ≠ '{' ∧ c ≠ '[' ∧ c ≠ '"'
    ∧ c ≠ 'f' ∧ c ≠ 't' ∧ c ≠ 'n' := by
  have hd : ∀ d : Char, isDigitC d = false → c ≠ d := by
    intro d hdf he
    subst he
    rw [h] at hdf
    cases hdf
  exact ⟨hd _ (by decide), hd _ (by decide), hd _ (by decide), hd _ (by decide),
    hd _ (by decide), hd _ (by decide), hd _ (by decide), hd _ (by decide),
    hd _ (by decide), hd _ (by decide)⟩

/-- No digit character counts as JSON whitespace. -/
theorem digit_char_not_ws (c : Char) (h : isDigitC c = true) : jsonWs c = false := by
  have h1 : c ≠ ' ' := by rintro rfl; exact absurd h (by decide)
  have h2 : c ≠ '\t' := by rintro rfl; exact absurd h (by decide)
  have h3 : c ≠ '\n' := by rintro rfl; exact absurd h (by decide)
  have h4 : c ≠ '\x0d' := by rintro rfl; exact absurd h (by decide)
  simp [jsonWs, h1, h2, h3, h4]

/-- The integer token parser inverts the integer renderer, whenever the
remainder cannot extend the digit run. -/
theorem parseIntTok_intToDec (i : Int) (rest : Str) (hrest : notDigitStart rest = true) :
    parseIntTok (intToDec i ++ rest) = some (i, rest) := by
  by_cases hi : i < 0
  · have harg : intToDec i ++ rest = '-' :: (natToDec i.natAbs ++ rest) := by
      simp [intToDec, hi]
    rw [harg]
    have htd := takeDigits_run (natToDec i.natAbs) (natToDec_digits _) rest hrest
    simp only [parseIntTok, htd]
    rw [if_neg (natToDec_ne_nil _)]
    rw [digitsToNat_natToDec]
    have : -((i.natAbs : Nat) : Int) = i := by omega
    rw [this]
  · obtain ⟨c0, t0, h0, hc0⟩ := natToDec_head i.natAbs
    have harg : intToDec i ++ rest = c0 :: (t0 ++ rest) := by
      simp [intToDec, hi, h0]
    have hne : c0 ≠ '-' := (digit_char_ne c0 hc0).1
    have htd : takeDigits (c0 :: (t0 ++ rest)) = (c0 :: t0, rest) := by
      have := takeDigits_run (natToDec i.natAbs) (natToDec_digits _) rest hrest
      rw [h0] at this
      simpa using this
    have hdi : digitsToNat (c0 :: t0) = i.natAbs := by
      have := digitsToNat_natToDec i.natAbs
      rwa [h0] at this
    have hstep : parseIntTok (c0 :: (t0 ++ rest)) = (
        let p := takeDigits (c0 :: (t0 ++ rest));
        if p.1 = [] then none else some ((digitsToNat p.1 : Int), p.2)) := by
      rw [parseIntTok.eq_def]
      split
      · rename_i r heq
        injection heq with hh _
        exact absurd hh hne
      · rfl
    rw [harg, hstep, htd]
    simp only
    rw [if_neg (by simp), hdi]
    have : ((i.natAbs : Nat) : Int) = i := by omega
    rw [this]

theorem hexValC_escHex : ∀ n < 16, hexValC (escHex n) = some n := by decide

/-- Parsing one escaped character undoes `escChar`. -/
theorem parseStrBody_escChar (c : Char) (acc rest : Str) :
    parseStrBody acc (escChar c ++ rest) = parseStrBody (c :: acc) rest := by
  by_cases h1 : c = '"'
  · subst h1; simp [escChar, parseStrBody, unescC]
  by_cases h2 : c = '\\'
  · subst h2; simp [escChar, parseStrBody, unescC]
  by_cases h3 : c = '\n'
  · subst h3; simp [escChar, parseStrBody, unescC]
  by_cases h4 : c = '\r'
  · subst h4; simp [escChar, parseStrBody, unescC]
  by_cases h5 : c = '\t'
  · subst h5; simp [escChar, parseStrBody, unescC]
  by_cases h6 : c = Char.ofNat 8
  · subst h6; simp [escChar, parseStrBody, unescC]
  by_cases h7 : c = Char.ofNat 12
  · subst h7; simp [escChar, parseStrBody, unescC]
  by_cases hlt : c.toNat < 32
  · have hesc : escChar c
        = ['\\', 'u', '0', '0', escHex (c.toNat / 16), escHex (c.toNat % 16)] := by
      simp [escChar, h1, h2, h3, h4, h5, h6, h7, hlt]
    rw [hesc]
    show (match hexValC '0', hexValC '0', hexValC (escHex (c.toNat / 16)),
            hexValC (escHex (c.toNat % 16)) with
          | some va, some vb, some vc, some vd =>
            parseStrBody (Char.ofNat (((va * 16 + vb) * 16 + vc) * 16 + vd) :: acc) rest
          | _, _, _, _ => none) = parseStrBody (c :: acc) rest
    rw [show hexValC '0' = some 0 from by decide,
        hexValC_escHex (c.toNat / 16) (by omega),
        hexValC_escHex (c.toNat % 16) (Nat.mod_lt _ (by omega))]
    simp only
    have hv : ((0 * 16 + 0) * 16 + c.toNat / 16) * 16 + c.toNat % 16 = c.toNat := by omega
    rw [hv, Char.ofNat_toNat]
  · have hesc : escChar c = [c] := by
      simp [escChar, h1, h2, h3, h4, h5, h6, h7, hlt]
    rw [hesc]
    show parseStrBody acc (c :: rest) = parseStrBody (c :: acc) rest
    rw [parseStrBody.eq_def]
    split
    · rename_i heq
      injection heq with hh _
      exact absurd hh h1
    · rename_i a b d e r heq
      injection heq with hh _
      exact absurd hh h2
    · rename_i e r heq
      injection heq with hh _
      exact absurd hh h2
    · rename_i c2 r heq
      injection heq with hh htl
      subst hh; subst htl; rfl
    · rename_i heq
      exact absurd heq (by simp)

/-- Parsing an escaped body stops exactly at the closing quote and recovers
the original characters. -/
theorem parseStrBody_flatMap (s : Str) : ∀ (acc rest : Str),
    parseStrBody acc (s.flatMap escChar ++ '"' :: rest) = some (acc.reverse ++ s, rest) := by
  induction s with
  | nil => intro acc rest; simp [parseStrBody]
  | cons c cs ih =>
    intro acc rest
    rw [List.flatMap_cons, List.append_assoc, parseStrBody_escChar, ih]
    simp

theorem skipWs_cons_of_neg (c : Char) (t : Str) (h : jsonWs c = false) :
    skipWs (c :: t) = c :: t := by
  unfold skipWs
  rw [List.dropWhile_cons_of_neg (by simp [h])]

theorem skipWs_space (t : Str) : skipWs (' ' :: t) = skipWs t := by
  unfold skipWs
  rw [List.dropWhile_cons_of_pos (by decide)]

/-- Every serialized value starts with a character that is neither whitespace
nor one of the closing and separating delimiters. -/
theorem dumps_head (j : Jval) :
    ∃ c t, dumps j = c :: t
      ∧ jsonWs c = false
      ∧ c ≠ ']' ∧ c ≠ '}' ∧ c ≠ ',' := by
  cases j with
  | null => exact ⟨'n', _, rfl, by decide, by decide, by decide, by decide⟩
  | jb b =>
    cases b with
    | true => exact ⟨'t', _, rfl, by decide, by decide, by decide, by decide⟩
    | false => exact ⟨'f', _, rfl, by decide, by decide, by decide, by decide⟩
  | js s => exact ⟨'"', _, rfl, by decide, by decide, by decide, by decide⟩
  | ja a =>
    cases a with
    | anil => exact ⟨'[', _, rfl, by decide, by decide, by decide, by decide⟩
    | acons v t => exact ⟨'[', _, rfl, by decide, by decide, by decide, by decide⟩
  | jo o =>
    cases o with
    | onil => exact ⟨'{', _, rfl, by decide, by decide, by decide, by decide⟩
    | ocons k v t => exact ⟨'{', _, rfl, by decide, by decide, by decide, by decide⟩
  | ji i =>
    by_cases hi : i < 0
    · refine ⟨'-', natToDec i.natAbs, ?_, by decide, by decide, by decide, by decide⟩
      simp [dumps, intToDec, hi]
    · obtain ⟨c0, t0, h0, hc0⟩ := natToDec_head i.natAbs
      obtain ⟨_, hb1, hb2, hb3, _⟩ := digit_char_ne c0 hc0
      refine ⟨c0, t0, ?_, digit_char_not_ws c0 hc0, hb1, hb2, hb3⟩
      simp [dumps, intToDec, hi, h0]

/-- Lemma: `skipWs` does not touch serialized output. -/
theorem skipWs_dumps_append (j : Jval) (x : Str) :
    skipWs (dumps j ++ x) = dumps j ++ x := by
  obtain ⟨c, t, heq, hws, _, _, _⟩ := dumps_head j
  rw [heq, List.cons_append, skipWs_cons_of_neg c _ hws]

/-- The head of a non-empty array body is the head of its first element. -/
theorem dumpsA_cons_decomp (v : Jval) (t : Jarr) :
    (t = .anil ∧ dumpsA (.acons v t) = dumps v)
    ∨ (∃ w t2, t = .acons w t2
        ∧ dumpsA (.acons v t) = dumps v ++ ',' :: ' ' :: dumpsA (.acons w t2)) := by
  cases t with
  | anil => exact Or.inl ⟨rfl, by simp [dumpsA]⟩
  | acons w t2 => exact Or.inr ⟨w, t2, rfl, by simp [dumpsA]⟩

theorem sizeJ_pos (j : Jval) : 1 ≤ sizeJ j := by
  cases j <;> simp [sizeJ]

theorem sizeA_pos (a : Jarr) : 1 ≤ sizeA a := by
  cases a <;> simp [sizeA] <;> omega

theorem sizeO_pos (o : Jobj) : 1 ≤ sizeO o := by
  cases o <;> simp [sizeO] <;> omega

theorem notDigitStart_cons (c : Char) (t : Str) (h : isDigitC c = false) :
    notDigitStart (c :: t) = true := by simp [notDigitStart, h]

/-- Unfolding of the parser at an opening bracket. -/
theorem parseVal_cons_arr (fuel : Nat) (r : Str) :
    parseVal (fuel+1) ('[' :: r) = (
      if (skipWs r).head? = some ']' then some (Jval.ja .anil, (skipWs r).tail)
      else (parseItems fuel (skipWs r)).map (fun p => (Jval.ja p.1, p.2))) := rfl

/-- Unfolding of the parser at an opening brace. -/
theorem parseVal_cons_obj (fuel : Nat) (r : Str) :
    parseVal (fuel+1) ('{' :: r) = (
      if (skipWs r).head? = some '}' then some (Jval.jo .onil, (skipWs r).tail)
      else (parseFields fuel (skipWs r)).map (fun p => (Jval.jo p.1, p.2))) := rfl

/-- Unfolding of the parser at a numeric head character. -/
theorem parseVal_cons_num (fuel : Nat) (c : Char) (t : Str)
    (hws : jsonWs c = false)
    (hn : c ≠ 'n') (ht : c ≠ 't') (hf : c ≠ 'f') (hq : c ≠ '"') (hlb : c ≠ '[') (hlc : c ≠ '{')
    (hg : c = '-' ∨ isDigitC c = true) :
    parseVal (fuel+1) (c :: t) = (parseIntTok (c :: t)).map (fun p => (Jval.ji p.1, p.2)) := by
  have h0 : parseVal (fuel+1) (c :: t) = (
      match skipWs (c :: t) with
      | 'n' :: 'u' :: 'l' :: 'l' :: r => some (.null, r)
      | 't' :: 'r' :: 'u' :: 'e' :: r => some (.jb true, r)
      | 'f' :: 'a' :: 'l' :: 's' :: 'e' :: r => some (.jb false, r)
      | '"' :: r => (parseStrBody [] r).map (fun p => (.js p.1, p.2))
      | '[' :: r =>
        (if (skipWs r).head? = some ']' then some (.ja .anil, (skipWs r).tail)
         else (parseItems fuel (skipWs r)).map (fun p => (.ja p.1, p.2)))
      | '{' :: r =>
        (if (skipWs r).head? = some '}' then some (.jo .onil, (skipWs r).tail)
         else (parseFields fuel (skipWs r)).map (fun p => (.jo p.1, p.2)))
      | c :: r =>
        if c = '-' ∨ isDigitC c then (parseIntTok (c :: r)).map (fun p => (.ji p.1, p.2))
        else none
      | [] => none) := rfl
  rw [h0, skipWs_cons_of_neg c t hws]
  split
  · rename_i r heq; injection heq with hh _; exact absurd hh hn
  · rename_i r heq; injection heq with hh _; exact absurd hh ht
  · rename_i r heq; injection heq with hh _; exact absurd hh hf
  · rename_i r heq; injection heq with hh _; exact absurd hh hq
  · rename_i r heq; injection heq with hh _; exact absurd hh hlb
  · rename_i r heq; injection heq with hh _; exact absurd hh hlc
  · rename_i c2 r heq
    injection heq with hh htl
    subst hh; subst htl
    rw [if_pos hg]
  · rename_i heq
    exact absurd heq (by simp)

mutual
theorem parseVal_dumps : ∀ (fuel : Nat) (j : Jval) (rest : Str),
    sizeJ j ≤ fuel → notDigitStart rest = true →
    parseVal fuel (dumps j ++ rest) = some (j, rest)
  | 0, j, _ => fun hs _ => absurd hs (by have := sizeJ_pos j; omega)
  | fuel + 1, j, rest => fun hs hr => by
    cases j with
    | null => simp [parseVal, dumps, skipWs, jsonWs]
    | jb b => cases b <;> simp [parseVal, dumps, skipWs, jsonWs]
    | js s =>
      simp only [dumps, escStr]
      rw [show ('"' :: (s.flatMap escChar ++ ['"'])) ++ rest
            = '"' :: (s.flatMap escChar ++ '"' :: rest) from by simp]
      simp [parseVal, skipWs, jsonWs, parseStrBody_flatMap s [] rest]
    | ji i =>
      by_cases hi : i < 0
      · have harg : dumps (.ji i) ++ rest = '-' :: (natToDec i.natAbs ++ rest) := by
          simp [dumps, intToDec, hi]
        rw [harg, parseVal_cons_num fuel '-' _ (by decide) (by decide) (by decide) (by decide)
              (by decide) (by decide) (by decide) (Or.inl rfl)]
        rw [show '-' :: (natToDec i.natAbs ++ rest) = intToDec i ++ rest from by
              simp [intToDec, hi]]
        rw [parseIntTok_intToDec i rest hr]
        rfl
      · obtain ⟨c0, t0, h0, hc0⟩ := natToDec_head i.natAbs
        obtain ⟨hm, _, _, _, hlc2, hlb2, hq2, hf2, ht2, hn2⟩ := digit_char_ne c0 hc0
        have harg : dumps (.ji i) ++ rest = c0 :: (t0 ++ rest) := by
          simp [dumps, intToDec, hi, h0]
        rw [harg, parseVal_cons_num fuel c0 _ (digit_char_not_ws c0 hc0) hn2 ht2 hf2 hq2
              hlb2 hlc2 (Or.inr hc0)]
        rw [show c0 :: (t0 ++ rest) = intToDec i ++ rest from by simp [intToDec, hi, h0]]
        rw [parseIntTok_intToDec i rest hr]
        rfl
    | ja a =>
      cases a with
      | anil => simp [parseVal, dumps, skipWs, jsonWs]
      | acons v t =>
        have harg : dumps (.ja (.acons v t)) ++ rest
            = '[' :: (dumpsA (.acons v t) ++ ']' :: rest) := by
          simp [dumps]
        rw [harg, parseVal_cons_arr]
        obtain ⟨c, t', heqd, hws, hne1, _, _⟩ := dumps_head v
        obtain ⟨z, hbody⟩ : ∃ z, dumpsA (.acons v t) ++ ']' :: rest = c :: z := by
          rcases dumpsA_cons_decomp v t with ⟨ht, hd⟩ | ⟨w, t2, ht, hd⟩
          · rw [hd, heqd]
            exact ⟨t' ++ ']' :: rest, by simp⟩
          · rw [hd, heqd]
            exact ⟨t' ++ ',' :: ' ' :: dumpsA (.acons w t2) ++ ']' :: rest, by simp⟩
        rw [hbody, skipWs_cons_of_neg c _ hws, List.head?_cons,
            if_neg (by simp [hne1]), ← hbody]
        rw [parseItems_dumpsA fuel v t rest (by
          have h1 := sizeA_pos t; have h2 := sizeJ_pos v
          simp only [sizeJ] at hs
          omega)]
        rfl
    | jo o =>
      cases o with
      | onil => simp [parseVal, dumps, skipWs, jsonWs]
      | ocons k v t =>
        have harg : dumps (.jo (.ocons k v t)) ++ rest
            = '{' :: (dumpsO (.ocons k v t) ++ '}' :: rest) := by
          simp [dumps]
        rw [harg, parseVal_cons_obj]
        obtain ⟨z, hbody⟩ : ∃ z, dumpsO (.ocons k v t) ++ '}' :: rest = '"' :: z := by
          cases t with
          | onil =>
            exact ⟨k.flatMap escChar ++ '"' :: (':' :: ' ' :: (dumps v ++ '}' :: rest)),
              by simp [dumpsO, escStr]⟩
          | ocons k2 v2 t2 =>
            exact ⟨k.flatMap escChar
                ++ '"' :: (':' :: ' ' :: (dumps v
                  ++ ',' :: ' ' :: (dumpsO (.ocons k2 v2 t2) ++ '}' :: rest))),
              by simp [dumpsO, escStr]⟩
        rw [hbody, skipWs_cons_of_neg '"' _ (by decide), List.head?_cons,
            if_neg (by decide), ← hbody]
        rw [parseFields_dumpsO fuel k v t rest (by
          have h1 := sizeO_pos t; have h2 := sizeJ_pos v
          simp only [sizeJ] at hs
          omega)]
        rfl

theorem parseItems_dumpsA : ∀ (fuel : Nat) (v : Jval) (t : Jarr) (rest : Str),
    sizeA (.acons v t) ≤ fuel →
    parseItems fuel (dumpsA (.acons v t) ++ ']' :: rest) = some (.acons v t, rest)
  | 0, v, t, _ => fun hs => absurd hs (by
      have h1 := sizeJ_pos v; have h2 := sizeA_pos t
      simp only [sizeA]
      omega)
  | fuel + 1, v, t, rest => fun hs => by
    cases t with
    | anil =>
      simp only [dumpsA, parseItems]
      rw [parseVal_dumps fuel v (']' :: rest) (by
            simp only [sizeA] at hs; omega)
          (notDigitStart_cons ']' _ (by decide))]
      rw [Option.some_bind]
      rw [skipWs_cons_of_neg ']' _ (by decide)]
      simp
    | acons w t2 =>
      have harg : dumpsA (.acons v (.acons w t2)) ++ ']' :: rest
          = dumps v ++ (',' :: ' ' :: (dumpsA (.acons w t2) ++ ']' :: rest)) := by
        simp [dumpsA]
      rw [harg]
      simp only [parseItems]
      rw [parseVal_dumps fuel v _ (by
            have h1 := sizeA_pos t2; have h2 := sizeJ_pos w
            simp only [sizeA] at hs ⊢; omega)
          (notDigitStart_cons ',' _ (by decide))]
      rw [Option.some_bind]
      rw [skipWs_cons_of_neg ',' _ (by decide)]
      simp only [List.head?_cons, List.tail_cons, if_pos rfl, skipWs_space]
      obtain ⟨c, t', heqd, hws, _, _, _⟩ := dumps_head w
      obtain ⟨z, hbody⟩ : ∃ z, dumpsA (.acons w t2) ++ ']' :: rest = c :: z := by
        rcases dumpsA_cons_decomp w t2 with ⟨ht, hd⟩ | ⟨w2, t3, ht, hd⟩
        · rw [hd, heqd]
          exact ⟨t' ++ ']' :: rest, by simp⟩
        · rw [hd, heqd]
          exact ⟨t' ++ ',' :: ' ' :: dumpsA (.acons w2 t3) ++ ']' :: rest, by simp⟩
      rw [hbody, skipWs_cons_of_neg c _ hws, ← hbody]
      rw [parseItems_dumpsA fuel w t2 rest (by simp only [sizeA] at hs ⊢; omega)]
      rfl

theorem parseFields_dumpsO : ∀ (fuel : Nat) (k : Str) (v : Jval) (t : Jobj) (rest : Str),
    sizeO (.ocons k v t) ≤ fuel →
    parseFields fuel (dumpsO (.ocons k v t) ++ '}' :: rest) = some (.ocons k v t, rest)
  | 0, k, v, t, _ => fun hs => absurd hs (by
      have h1 := sizeJ_pos v; have h2 := sizeO_pos t
      simp only [sizeO]
      omega)
  | fuel + 1, k, v, t, rest => fun hs => by
    cases t with
    | onil =>
      have harg : dumpsO (.ocons k v .onil) ++ '}' :: rest
          = '"' :: (k.flatMap escChar ++ '"' :: (':' :: ' ' :: (dumps v ++ '}' :: rest))) := by
        simp [dumpsO, escStr]
      rw [harg]
      simp only [parseFields, List.head?_cons, List.tail_cons, if_pos rfl]
      rw [parseStrBody_flatMap k [] _]
      simp only [List.reverse_nil, List.nil_append]
      rw [Option.some_bind]
      rw [skipWs_cons_of_neg ':' _ (by decide)]
      simp only [List.head?_cons, List.tail_cons, if_pos rfl, skipWs_space]
      rw [skipWs_dumps_append v _]
      rw [parseVal_dumps fuel v _ (by
            simp only [sizeO] at hs; omega)
          (notDigitStart_cons '}' _ (by decide))]
      rw [Option.some_bind]
      rw [skipWs_cons_of_neg '}' _ (by decide)]
      simp
    | ocons k2 v2 t2 =>
      have harg : dumpsO (.ocons k v (.ocons k2 v2 t2)) ++ '}' :: rest
          = '"' :: (k.flatMap escChar
              ++ '"' :: (':' :: ' ' :: (dumps v
                ++ ',' :: ' ' :: (dumpsO (.ocons k2 v2 t2) ++ '}' :: rest)))) := by
        simp [dumpsO, escStr]
      rw [harg]
      simp only [parseFields, List.head?_cons, List.tail_cons, if_pos rfl]
      rw [parseStrBody_flatMap k [] _]
      simp only [List.reverse_nil, List.nil_append]
      rw [Option.some_bind]
      rw [skipWs_cons_of_neg ':' _ (by decide)]
      simp only [List.head?_cons, List.tail_cons, if_pos rfl, skipWs_space]
      rw [skipWs_dumps_append v _]
      rw [parseVal_dumps fuel v _ (by
            have h1 := sizeO_pos t2; have h2 := sizeJ_pos v2
            simp only [sizeO] at hs ⊢; omega)
          (notDigitStart_cons ',' _ (by decide))]
      rw [Option.some_bind]
      rw [skipWs_cons_of_neg ',' _ (by decide)]
      simp only [List.head?_cons, List.tail_cons, if_pos rfl, skipWs_space]
      obtain ⟨z2, hbody⟩ : ∃ z2, dumpsO (.ocons k2 v2 t2) ++ '}' :: rest = '"' :: z2 := by
        cases t2 with
        | onil =>
          exact ⟨k2.flatMap escChar ++ '"' :: (':' :: ' ' :: (dumps v2 ++ '}' :: rest)),
            by simp [dumpsO, escStr]⟩
        | ocons k3 v3 t3 =>
          exact ⟨k2.flatMap escChar
              ++ '"' :: (':' :: ' ' :: (dumps v2
                ++ ',' :: ' ' :: (dumpsO (.ocons k3 v3 t3) ++ '}' :: rest))),
            by simp [dumpsO, escStr]⟩
      rw [hbody, skipWs_cons_of_neg '"' _ (by decide), ← hbody]
      rw [parseFields_dumpsO fuel k2 v2 t2 rest (by simp only [sizeO] at hs ⊢; omega)]
      rfl
end

theorem dumps_len_pos (j : Jval) : 1 ≤ (dumps j).length := by
  obtain ⟨c, t, heq, _, _, _, _⟩ := dumps_head j
  rw [heq]
  simp

mutual
theorem sizeJ_le_dumps : ∀ (j : Jval), sizeJ j ≤ 2 * (dumps j).length
  | .null => by simp [sizeJ, dumps]
  | .jb b => by cases b <;> simp [sizeJ, dumps]
  | .ji i => by
    have h := dumps_len_pos (.ji i)
    simp only [sizeJ]
    omega
  | .js s => by
    have h := dumps_len_pos (.js s)
    simp only [sizeJ]
    omega
  | .ja a => by
    have h := sizeA_le_dumpsA a
    cases a with
    | anil => simp [sizeJ, sizeA, dumps]
    | acons v t =>
      simp only [sizeJ, dumps, List.length_cons, List.length_append,
        List.length_singleton] at *
      omega
  | .jo o => by
    have h := sizeO_le_dumpsO o
    cases o with
    | onil => simp [sizeJ, sizeO, dumps]
    | ocons k v t =>
      simp only [sizeJ, dumps, List.length_cons, List.length_append,
        List.length_singleton] at *
      omega
theorem sizeA_le_dumpsA : ∀ (a : Jarr), sizeA a ≤ 2 * (dumpsA a).length + 2
  | .anil => by simp [sizeA, dumpsA]
  | .acons v .anil => by
    have h := sizeJ_le_dumps v
    simp only [sizeA, sizeA.eq_1, dumpsA]
    omega
  | .acons v (.acons w t2) => by
    have h1 := sizeJ_le_dumps v
    have h2 := sizeA_le_dumpsA (.acons w t2)
    simp only [sizeA, dumpsA, List.length_append, List.length_cons] at *
    omega
theorem sizeO_le_dumpsO : ∀ (o : Jobj), sizeO o ≤ 2 * (dumpsO o).length + 2
  | .onil => by simp [sizeO, dumpsO]
  | .ocons k v .onil => by
    have h := sizeJ_le_dumps v
    simp only [sizeO, sizeO.eq_1, dumpsO, List.length_append, List.length_cons]
    omega
  | .ocons k v (.ocons k2 v2 t2) => by
    have h1 := sizeJ_le_dumps v
    have h2 := sizeO_le_dumpsO (.ocons k2 v2 t2)
    simp only [sizeO, dumpsO, List.length_append, List.length_cons] at *
    omega
end

/-- The JSON codec round-trip: parsing a serialized value recovers it.
This is the `json.loads`/`json.dumps` symmetry the SSE codec relies on. -/
theorem jsonLoads_dumps (j : Jval) : jsonLoads (dumps j) = some j := by
  have hsz : sizeJ j ≤ 2 * (dumps j).length + 2 := by
    have := sizeJ_le_dumps j
    omega
  have h := parseVal_dumps (2 * (dumps j).length + 2) j [] hsz (by rfl)
  rw [List.append_nil] at h
  simp only [jsonLoads, h]
  rfl

/-!
## SSE codec

`sse` is `_sse` from `src/orchestrator/app/orchestrator.py` (the identical
helper appears in `main.py` and in `src/llm_service/app/services.py`):
`f"event: {event}\ndata: {json.dumps(data, ensure_ascii=False)}\n\n"`.

`decodeSSE` is the line-based decoder of
`src/telegram_bot/app/streaming.py` (lines 88-100): blank lines and lines
starting with `:` are skipped, an `event: ` line records the pending event
type (`line[7:].strip()`), and a `data: ` line parses `line[6:]` as JSON and
together with the pending type yields one event; an unparseable data line is
dropped and the stream continues.  In the source the pending type starts
unbound (a data line before any event line would raise `NameError`); the
model carries it as an `Option` and skips a data line with no pending type,
which is unreachable on the streams this system produces. -/
def sse (event : Str) (data : Jval) : Str :=
  sl "event: " ++ event ++ sl "\n" ++ sl "data: " ++ dumps data ++ sl "\n\n"

/-- The line-based decoder state machine over already-split lines. -/
def decodeSSE : Option Str → List Str → List (Str × Jval)
  | _, [] => []
  | pending, line :: rest =>
    if line = [] then decodeSSE pending rest
    else if line.head? = some ':' then decodeSSE pending rest
    else if startsWith (sl "event: ") line then decodeSSE (some (strip (line.drop 7))) rest
    else if startsWith (sl "data: ") line then
      (match pending with
       | some t =>
         (match jsonLoads (line.drop 6) with
          | some p => (t, p) :: decodeSSE pending rest
          | none => decodeSSE pending rest)
       | none => decodeSSE pending rest)
    else decodeSSE pending rest

theorem decodeSSE_blank (pending : Option Str) (rest : List Str) :
    decodeSSE pending ([] :: rest) = decodeSSE pending rest := by
  simp [decodeSSE]

theorem decodeSSE_event_line (pending : Option Str) (t : Str) (rest : List Str) :
    decodeSSE pending ((sl "event: " ++ t) :: rest) = decodeSSE (some (strip t)) rest := by
  have hcons : sl "event: " ++ t = 'e' :: (sl "vent: " ++ t) := rfl
  have hne : sl "event: " ++ t ≠ [] := by rw [hcons]; simp
  have hh : (sl "event: " ++ t).head? ≠ some ':' := by rw [hcons]; simp
  have hsw : startsWith (sl "event: ") (sl "event: " ++ t) = true := startsWith_append _ _
  have hdrop : (sl "event: " ++ t).drop 7 = t := by
    have : (7 : Nat) = (sl "event: ").length := by rfl
    rw [this, List.drop_left]
  simp only [decodeSSE, if_neg hne, if_neg hh, hsw, if_pos, hdrop]

theorem decodeSSE_data_line (t : Str) (p : Jval) (rest : List Str) :
    decodeSSE (some t) ((sl "data: " ++ dumps p) :: rest)
      = (t, p) :: decodeSSE (some t) rest := by
  have hcons : sl "data: " ++ dumps p = 'd' :: (sl "ata: " ++ dumps p) := rfl
  have hne : sl "data: " ++ dumps p ≠ [] := by rw [hcons]; simp
  have hh : (sl "data: " ++ dumps p).head? ≠ some ':' := by rw [hcons]; simp
  have hsw1 : startsWith (sl "event: ") (sl "data: " ++ dumps p) = false := by
    rw [hcons]
    simp [sl, startsWith]
  have hsw2 : startsWith (sl "data: ") (sl "data: " ++ dumps p) = true := startsWith_append _ _
  have hdrop : (sl "data: " ++ dumps p).drop 6 = dumps p := by
    have : (6 : Nat) = (sl "data: ").length := by rfl
    rw [this, List.drop_left]
  simp only [decodeSSE, if_neg hne, if_neg hh, hsw1, hsw2, if_pos, hdrop,
    Bool.false_eq_true, if_false, jsonLoads_dumps]

theorem noBreak_append (a b : Str) : noBreak (a ++ b) = (noBreak a && noBreak b) := by
  simp [noBreak, List.any_append]

/-- Splitting an encoded event into lines yields exactly the event line, the
data line, and one blank line. -/
theorem splitLines_sse (t : Str) (p : Jval)
    (ht : noBreak t = true) (hp : noBreak (dumps p) = true) :
    splitLines (sse t p) = [sl "event: " ++ t, sl "data: " ++ dumps p, []] := by
  have hA : noBreak (sl "event: " ++ t) = true := by
    rw [noBreak_append, ht]
    decide
  have hB : noBreak (sl "data: " ++ dumps p) = true := by
    rw [noBreak_append, hp]
    decide
  have hsh : sse t p = (sl "event: " ++ t)
      ++ '\n' :: ((sl "data: " ++ dumps p) ++ '\n' :: ('\n' :: [])) := by
    simp [sse, sl]
  rw [splitLines, hsh, splitNl_append_of_noBreak _ _ hA, splitNl_append_of_noBreak _ _ hB]
  simp [splitNl]

/-- Discriminates the payloads that are JSON objects (Python dicts). -/
def isObjB : Jval → Bool
  | .jo _ => true
  | _ => false

/-- C7 (amended).  The SSE codec is symmetric for every event type `t` that
contains no line break and carries no surrounding whitespace (the decoder
applies `line[7:].strip()`, so whitespace around the type is not recovered),
and every JSON-object payload whose serialization contains no line break:
decoding `encode(t, p)` with the line-based decoder yields exactly `(t, p)`. -/
theorem C7_sse_codec_symmetric (t : Str) (p : Jval)
    (h1 : noBreak t = true) (h2 : strip t = t)
    (h3 : noBreak (dumps p) = true) (h4 : isObjB p = true) :
    decodeSSE none (splitLines (sse t p)) = [(t, p)] := by
  rw [splitLines_sse t p h1 h3, decodeSSE_event_line, h2, decodeSSE_data_line, decodeSSE_blank]
  rfl

/-- C7 witness: the codec symmetry instantiated at the terminal event
`("done", {"status": "completed"})` of this system. -/
theorem C7_sse_codec_symmetric_witness :
    noBreak (sl "done") = true ∧ strip (sl "done") = sl "done"
    ∧ noBreak (dumps (.jo (.ocons (sl "status") (.js (sl "completed")) .onil))) = true
    ∧ isObjB (Jval.jo (.ocons (sl "status") (.js (sl "completed")) .onil)) = true
    ∧ decodeSSE none (splitLines (sse (sl "done")
        (.jo (.ocons (sl "status") (.js (sl "completed")) .onil))))
      = [(sl "done", Jval.jo (.ocons (sl "status") (.js (sl "completed")) .onil))] :=
  ⟨by decide, by decide, by decide, rfl,
    C7_sse_codec_symmetric _ _ (by decide) (by decide) (by decide) rfl⟩

/-- C7 counterexample: the claim as stated fails for the event type `"x "`:
the decoder strips the event type, so `decode(encode("x ", {}))` yields the
pair `("x", {})`, not `("x ", {})`. -/
theorem C7_sse_codec_counterexample :
    decodeSSE none (splitLines (sse (sl "x ") (.jo .onil))) = [(sl "x", Jval.jo .onil)]
    ∧ sl "x" ≠ sl "x " := by
  constructor
  · decide
  · decide

/-!
## Orchestrator data model and services

From `src/orchestrator/app/models.py` and `services.py`.  Backend call
outcomes are explicit parameters: a per-file extraction/recognition backend
is a function to `Option Str` (`none` = that file's call raised and the
file is skipped, the per-file `try/except ... continue`), a whole-call
systemic failure is a separate `Option Str` (the exception `gather` returns
in place of a result list), and the routing backend outcome is an
`Option RoutingDecision` (`none` = any failure: network, timeout, malformed
or invalid response — everything the `except Exception` in `route_request`
catches). -/

structure FileReference where
  filename : Str
  url : Str
  type : Str
deriving DecidableEq

structure IncomingRequest where
  user_id : Str
  text : Str
  files : List FileReference
deriving DecidableEq

/-- The `Literal["tika", "qwen3vl"]` of `ProcessedFile.processing_method`. -/
inductive ProcMethod where
  | tika : ProcMethod
  | qwen3vl : ProcMethod
deriving DecidableEq

structure ProcessedFile where
  filename : Str
  original_type : Str
  extracted_text : Str
  processing_method : ProcMethod
deriving DecidableEq

/-- The `Literal["llm", "comfy"]` of `RoutingDecision.route`; pydantic
validation guarantees every constructed decision carries one of the two. -/
inductive Route where
  | llm : Route
  | comfy : Route
deriving DecidableEq

structure RoutingDecision where
  route : Route
  enhanced_prompt : Str
  reasoning : Option Str
  metadata : Option Jval
deriving DecidableEq

/-- The document MIME allow-list of `extract_text_from_documents`. -/
def document_types : List Str :=
  [sl "application/pdf",
   sl "application/vnd.openxmlformats-officedocument.wordprocessingml.document",
   sl "application/msword",
   sl "text/plain",
   sl "text/markdown",
   sl "application/vnd.ms-excel",
   sl "application/vnd.openxmlformats-officedocument.spreadsheetml.sheet",
   sl "application/octet-stream"]

/-- The image/video MIME allow-list of `recognize_multimodal_files`. -/
def multimodal_types : List Str :=
  [sl "image/jpeg", sl "image/png", sl "image/gif", sl "image/webp",
   sl "video/mp4", sl "video/webm"]

/-- Model of `extract_text_from_documents(user_id, files)` (services.py 11-69): filter
to the document allow-list, call the extraction backend per file, skip files
whose call fails, and build a `ProcessedFile` with method `tika` from each
success. -/
def extract_text_from_documents (user_id : Str) (files : List FileReference)
    (tikaBackend : FileReference → Option Str) : List ProcessedFile :=
  (files.filter (fun f => document_types.contains f.type)).filterMap (fun f =>
    (tikaBackend f).map (fun txt => ⟨f.filename, f.type, txt, .tika⟩))

/-- Model of `recognize_multimodal_files(user_id, files)` (services.py 72-131): the
same per-file partial-failure policy over the multimodal allow-list, method
`qwen3vl`. -/
def recognize_multimodal_files (user_id : Str) (files : List FileReference)
    (visionBackend : FileReference → Option Str) : List ProcessedFile :=
  (files.filter (fun f => multimodal_types.contains f.type)).filterMap (fun f =>
    (visionBackend f).map (fun txt => ⟨f.filename, f.type, txt, .qwen3vl⟩))

/-- One entry of the files context built inside `route_request`
(services.py 149-152). -/
def fileContextEntry (f : ProcessedFile) : Str :=
  sl "Файл: " ++ f.filename ++ sl "\nТип: " ++ f.original_type
    ++ sl "\nСодержимое:\n" ++ f.extracted_text

/-- The `files_context = "\n\n".join(...)` built inside `route_request`. -/
def files_context (processed : List ProcessedFile) : Str :=
  joinWith (sl "\n\n") (processed.map fileContextEntry)

/-- Model of `route_request` (services.py 135-180).  The whole backend interaction —
POST, `raise_for_status`, JSON decoding and `RoutingDecision(**result)`
validation — sits inside `try/except Exception`, so the function is total:
a backend success returns the backend's decision, any failure returns the
fixed fallback decision. -/
def route_request (user_id : Str) (original_prompt : Str)
    (processed_files : List ProcessedFile)
    (backend : Option RoutingDecision) : RoutingDecision :=
  match backend with
  | some d => d
  | none =>
    ⟨.llm,
     original_prompt ++ sl "\n\nКонтекст:\n" ++ files_context processed_files,
     some (sl "Prompting service unavailable, fallback to LLM"),
     none⟩

/-!
## Orchestration pipeline

`orchestrate_request` (orchestrator.py 23-134) modelled at event
granularity: every yielded chunk of this system is one `_sse`-framed event,
so the stream is a `List Event` of (type, payload) pairs; `sse` applied to
each element gives the wire text.

Three branches of the source are unreachable and therefore absent from the
model: the `except` at lines 70-74 (its `warning` event) cannot fire because
`asyncio.gather(..., return_exceptions=True)` returns task exceptions as
values instead of raising, and nothing else inside that `try` raises; the
`except` at lines 96-101 (routing `error` + bare `return`) cannot fire
because `route_request` catches every exception internally; the `else` at
lines 122-125 (unknown route) cannot fire because `RoutingDecision.route`
is a validated two-value `Literal`. -/

abbrev Event := Str × Jval

/-- Build a JSON array of strings (for the `files` field of a status event). -/
def jarrOfStrs : List Str → Jarr
  | [] => .anil
  | s :: r => .acons (.js s) (jarrOfStrs r)

def routeStr : Route → Str
  | .llm => sl "llm"
  | .comfy => sl "comfy"

/-- Python `route.upper()` on the two route literals. -/
def routeUpper : Route → Str
  | .llm => sl "LLM"
  | .comfy => sl "COMFY"

/-- Python `None` is rendered by `json.dumps` as JSON `null`. -/
def jsonOfOptStr : Option Str → Jval
  | some s => .js s
  | none => .null

def statusFileProcessing (n : Nat) : Event :=
  (sl "status", .jo (.ocons (sl "message")
      (.js (sl "Обрабатываю " ++ natToDec n ++ sl " файлов..."))
    (.ocons (sl "step") (.js (sl "file_processing")) .onil)))

def statusFileProcessingComplete (processed : List ProcessedFile) : Event :=
  (sl "status", .jo (.ocons (sl "message")
      (.js (sl "Обработано файлов: " ++ natToDec processed.length))
    (.ocons (sl "step") (.js (sl "file_processing_complete"))
    (.ocons (sl "files") (.ja (jarrOfStrs (processed.map (fun p => p.filename)))) .onil))))

def statusRouting : Event :=
  (sl "status", .jo (.ocons (sl "message") (.js (sl "Определяю маршрут запроса..."))
    (.ocons (sl "step") (.js (sl "routing")) .onil)))

def statusRoutingComplete (d : RoutingDecision) : Event :=
  (sl "status", .jo (.ocons (sl "message") (.js (sl "Маршрут: " ++ routeUpper d.route))
    (.ocons (sl "step") (.js (sl "routing_complete"))
    (.ocons (sl "route") (.js (routeStr d.route))
    (.ocons (sl "reasoning") (jsonOfOptStr d.reasoning) .onil)))))

def errorEvent (msg : Str) : Event :=
  (sl "error", .jo (.ocons (sl "message") (.js msg) .onil))

/-- The warning event shape of orchestrator.py line 72 (its only emitter is
the unreachable `except`; kept to state warning-counting properties). -/
def warningEvent (msg : Str) : Event :=
  (sl "warning", .jo (.ocons (sl "message") (.js msg) .onil))

def doneEvent : Event :=
  (sl "done", .jo (.ocons (sl "status") (.js (sl "completed")) .onil))

/-- The environment of one pipeline run: every backend outcome it consumes.
`tikaFail`/`visionFail` are whole-call failures (the exception object that
`gather` returns instead of a list); `tika`/`vision` are the per-file
outcomes used when the call as a whole survives; `llmChunks`/`comfyChunks`
are the events the chosen execution backend delivers before `llmFail`/
`comfyFail` (an exception raised while opening or reading that stream). -/
structure OrchEnv where
  tikaFail : Option Str
  tika : FileReference → Option Str
  visionFail : Option Str
  vision : FileReference → Option Str
  routing : Option RoutingDecision
  llmChunks : List Event
  llmFail : Option Str
  comfyChunks : List Event
  comfyFail : Option Str

/-- The Tika contribution: empty when the whole call failed (the non-list
`gather` result is only logged), the adapter's results otherwise. -/
def tikaPart (req : IncomingRequest) (env : OrchEnv) : List ProcessedFile :=
  match env.tikaFail with
  | some _ => []
  | none => extract_text_from_documents req.user_id req.files env.tika

/-- The vision contribution, same policy. -/
def visionPart (req : IncomingRequest) (env : OrchEnv) : List ProcessedFile :=
  match env.visionFail with
  | some _ => []
  | none => recognize_multimodal_files req.user_id req.files env.vision

/-- The `processed_files` list as passed to routing: nothing when the request has no
files (the whole stage is guarded by `if request.files:`), otherwise the
Tika extension followed by the vision extension, in that order
(orchestrator.py 53-61: `gather` returns positionally, so the merge order
is fixed regardless of completion order). -/
def processedOf (req : IncomingRequest) (env : OrchEnv) : List ProcessedFile :=
  if req.files = [] then [] else tikaPart req env ++ visionPart req env

/-- The events of the file fan-out stage (orchestrator.py 35-74): skipped
for a file-less request; otherwise the opening status event and, when any
file was processed, the completion status event.  No event marks a
whole-call failure (it is only logged). -/
def fileStageEvents (req : IncomingRequest) (env : OrchEnv) : List Event :=
  if req.files = [] then []
  else
    statusFileProcessing req.files.length ::
      (if processedOf req env = [] then [] else [statusFileProcessingComplete (processedOf req env)])

/-- The execution stage (orchestrator.py 104-131): forward the chosen
backend's chunks verbatim; an exception while opening or reading the stream
yields one `error` event. -/
def execEvents (d : RoutingDecision) (env : OrchEnv) : List Event :=
  match d.route with
  | .llm =>
    env.llmChunks ++ (match env.llmFail with
      | some m => [errorEvent (sl "Ошибка выполнения: " ++ m)]
      | none => [])
  | .comfy =>
    env.comfyChunks ++ (match env.comfyFail with
      | some m => [errorEvent (sl "Ошибка выполнения: " ++ m)]
      | none => [])

/-- Model of `orchestrate_request` (orchestrator.py 23-134): file fan-out events,
the two routing status events, the execution stream, and the terminal
`done` event. -/
def orchestrate_request (req : IncomingRequest) (env : OrchEnv) : List Event :=
  fileStageEvents req env
    ++ [statusRouting,
        statusRoutingComplete (route_request req.user_id req.text (processedOf req env) env.routing)]
    ++ execEvents (route_request req.user_id req.text (processedOf req env) env.routing) env
    ++ [doneEvent]

/-!
## Text backend stream (llm_service)

`stream_chat` (src/llm_service/app/services.py 17-119): the llama.cpp
deltas arrive as text chunks; each non-empty delta yields one `response`
event; an HTTP status failure or any other exception yields one `error`
event; and the function ends with its own `done` event on every path
(line 119 sits after the `try/except`). -/

inductive LlamaErr where
  | httpStatus : Nat → LlamaErr
  | exc : Str → LlamaErr

def respTextEvent (content : Str) : Event :=
  (sl "response", .jo (.ocons (sl "type") (.js (sl "text"))
    (.ocons (sl "content") (.js content) .onil)))

def stream_chat (deltas : List Str) (err : Option LlamaErr) : List Event :=
  (deltas.filter (fun c => !c.isEmpty)).map respTextEvent
    ++ (match err with
        | some (.httpStatus code) => [errorEvent (sl "LLM service error: " ++ natToDec code)]
        | some (.exc m) => [errorEvent (sl "Ошибка генерации: " ++ m)]
        | none => [])
    ++ [doneEvent]

/-- Event-type testers used by the stream-shape properties. -/
def isDoneEv (e : Event) : Bool := e.1 == sl "done"

def isWarningEv (e : Event) : Bool := e.1 == sl "warning"

/-- The chunks the chosen execution backend delivers for this run. -/
def execChunksOf (req : IncomingRequest) (env : OrchEnv) : List Event :=
  match (route_request req.user_id req.text (processedOf req env) env.routing).route with
  | .llm => env.llmChunks
  | .comfy => env.comfyChunks

theorem countP_done_fileStage (req : IncomingRequest) (env : OrchEnv) :
    (fileStageEvents req env).countP isDoneEv = 0 := by
  have h1 : isDoneEv (statusFileProcessing req.files.length) = false := by
    simp only [isDoneEv, statusFileProcessing]
    decide
  have h2 : isDoneEv (statusFileProcessingComplete (processedOf req env)) = false := by
    simp only [isDoneEv, statusFileProcessingComplete]
    decide
  unfold fileStageEvents
  split_ifs <;> simp [List.countP_cons, h1, h2]

theorem countP_done_statuses (d : RoutingDecision) :
    ([statusRouting, statusRoutingComplete d] : List Event).countP isDoneEv = 0 := by
  have h1 : isDoneEv statusRouting = false := by decide
  have h2 : isDoneEv (statusRoutingComplete d) = false := by
    simp only [isDoneEv, statusRoutingComplete]
    decide
  simp [List.countP_cons, h1, h2]

theorem countP_done_execEvents (d : RoutingDecision) (env : OrchEnv) :
    (execEvents d env).countP isDoneEv
      = (match d.route with
         | .llm => env.llmChunks
         | .comfy => env.comfyChunks).countP isDoneEv := by
  have herr : ∀ m, isDoneEv (errorEvent m) = false := by
    intro m
    simp only [isDoneEv, errorEvent]
    decide
  unfold execEvents
  cases d.route with
  | llm =>
    cases env.llmFail with
    | none => simp
    | some m => simp [List.countP_append, List.countP_cons, herr]
  | comfy =>
    cases env.comfyFail with
    | none => simp
    | some m => simp [List.countP_append, List.countP_cons, herr]

/-- C1 (amended).  Every stream `orchestrate_request` produces ends with the
orchestrator's own terminal `done` event, and the orchestrator appends
exactly one `done` of its own: the total number of `done` events is one more
than the number of `done` events inside the forwarded execution chunks.  The
claim's "exactly one `done` per stream" fails only because the execution
stage forwards the backend stream verbatim, and the repository's own text
backend terminates its stream with a `done` of its own (see the
counterexample). -/
theorem C1_done_terminal_amended (req : IncomingRequest) (env : OrchEnv) :
    (orchestrate_request req env).getLast? = some doneEvent
    ∧ (orchestrate_request req env).countP isDoneEv
        = (execChunksOf req env).countP isDoneEv + 1 := by
  constructor
  · unfold orchestrate_request
    exact List.getLast?_concat _
  · unfold orchestrate_request
    rw [List.countP_append, List.countP_append, List.countP_append]
    rw [countP_done_fileStage, countP_done_statuses, countP_done_execEvents]
    have h4 : ([doneEvent] : List Event).countP isDoneEv = 1 := by decide
    rw [h4]
    unfold execChunksOf
    omega

/-- C1 counterexample.  A file-less request whose routing backend fails
(fallback to the text route) and whose text backend delivers one delta: the
composed stream — the orchestrator forwarding `stream_chat`'s output — holds
two `done` events (the backend's and the orchestrator's), refuting "exactly
one `done` event per stream". -/
theorem C1_done_counterexample :
    (orchestrate_request ⟨sl "u1", sl "hello", []⟩
        ⟨none, fun _ => none, none, fun _ => none, none,
         stream_chat [sl "hi"] none, none, [], none⟩).countP isDoneEv = 2
    ∧ ¬ ((orchestrate_request ⟨sl "u1", sl "hello", []⟩
        ⟨none, fun _ => none, none, fun _ => none, none,
         stream_chat [sl "hi"] none, none, [], none⟩).countP isDoneEv = 1) := by
  constructor
  · decide
  · decide

/-- C2 (amended).  `route_request` never raises: it is total, returning the
backend's decision on success and, on a failure of any kind, the fallback
decision whose route is `llm` (the text route) and whose enhanced prompt is
`prompt + "\n\nКонтекст:\n" + filesContext` — the separator label is the
Russian `"Контекст:"`, not the claim's `"Context:"` — with reasoning
`"Prompting service unavailable, fallback to LLM"`. -/
theorem C2_route_fallback_amended (u p : Str) (files : List ProcessedFile) :
    route_request u p files none
      = ⟨Route.llm, p ++ sl "\n\nКонтекст:\n" ++ files_context files,
         some (sl "Prompting service unavailable, fallback to LLM"), none⟩
    ∧ ∀ d : RoutingDecision, route_request u p files (some d) = d :=
  ⟨rfl, fun _ => rfl⟩

/-- C2 counterexample.  At `prompt = "p"` with no processed files, the
fallback enhanced prompt is `"p\n\nКонтекст:\n"`, which differs from the
claimed `prompt + "\n\nContext:\n" + filesContext`. -/
theorem C2_route_fallback_counterexample :
    (route_request (sl "u") (sl "p") [] none).enhanced_prompt
      ≠ sl "p" ++ sl "\n\nContext:\n" ++ files_context [] := by
  decide

theorem extract_only_tika (u : Str) (files : List FileReference)
    (bk : FileReference → Option Str) :
    ∀ q ∈ extract_text_from_documents u files bk, q.processing_method = .tika := by
  intro q hq
  simp only [extract_text_from_documents, List.mem_filterMap, Option.map_eq_some'] at hq
  obtain ⟨f, _, txt, _, heq⟩ := hq
  rw [← heq]

theorem recognize_only_qwen (u : Str) (files : List FileReference)
    (bk : FileReference → Option Str) :
    ∀ q ∈ recognize_multimodal_files u files bk, q.processing_method = .qwen3vl := by
  intro q hq
  simp only [recognize_multimodal_files, List.mem_filterMap, Option.map_eq_some'] at hq
  obtain ⟨f, _, txt, _, heq⟩ := hq
  rw [← heq]

/-- C4 (confirmed).  The merged `ProcessedFile` sequence handed to routing
is the document-extraction results followed by the media-recognition
results: positionally fixed by `gather`'s ordered return and the two
`extend` calls, independent of which concurrent call finishes first.
Equivalently, the merged list equals its `tika`-method entries followed by
its `qwen3vl`-method entries. -/
theorem C4_merge_order (req : IncomingRequest) (env : OrchEnv) :
    processedOf req env = tikaPart req env ++ visionPart req env
    ∧ processedOf req env
        = (processedOf req env).filter (fun q => q.processing_method == ProcMethod.tika)
          ++ (processedOf req env).filter (fun q => q.processing_method == ProcMethod.qwen3vl) := by
  have htika : ∀ q ∈ tikaPart req env, q.processing_method = .tika := by
    intro q hq
    unfold tikaPart at hq
    cases henv : env.tikaFail with
    | some m => rw [henv] at hq; simp at hq
    | none => rw [henv] at hq; exact extract_only_tika _ _ _ q hq
  have hvis : ∀ q ∈ visionPart req env, q.processing_method = .qwen3vl := by
    intro q hq
    unfold visionPart at hq
    cases henv : env.visionFail with
    | some m => rw [henv] at hq; simp at hq
    | none => rw [henv] at hq; exact recognize_only_qwen _ _ _ q hq
  have hdec : processedOf req env = tikaPart req env ++ visionPart req env := by
    unfold processedOf
    split_ifs with hf
    · have h1 : tikaPart req env = [] := by
        unfold tikaPart
        cases env.tikaFail with
        | some m => rfl
        | none => simp [extract_text_from_documents, hf]
      have h2 : visionPart req env = [] := by
        unfold visionPart
        cases env.visionFail with
        | some m => rfl
        | none => simp [recognize_multimodal_files, hf]
      rw [h1, h2]
      rfl
    · rfl
  refine ⟨hdec, ?_⟩
  rw [hdec, List.filter_append, List.filter_append]
  have e1 : (tikaPart req env).filter (fun q => q.processing_method == ProcMethod.tika)
      = tikaPart req env :=
    List.filter_eq_self.mpr (fun a ha => by simp [htika a ha])
  have e2 : (visionPart req env).filter (fun q => q.processing_method == ProcMethod.tika)
      = [] :=
    List.filter_eq_nil_iff.mpr (fun a ha => by simp [hvis a ha])
  have e3 : (tikaPart req env).filter (fun q => q.processing_method == ProcMethod.qwen3vl)
      = [] :=
    List.filter_eq_nil_iff.mpr (fun a ha => by simp [htika a ha])
  have e4 : (visionPart req env).filter (fun q => q.processing_method == ProcMethod.qwen3vl)
      = visionPart req env :=
    List.filter_eq_self.mpr (fun a ha => by simp [hvis a ha])
  rw [e1, e2, e3, e4]
  simp

theorem countP_warning_fileStage (req : IncomingRequest) (env : OrchEnv) :
    (fileStageEvents req env).countP isWarningEv = 0 := by
  have h1 : isWarningEv (statusFileProcessing req.files.length) = false := by
    simp only [isWarningEv, statusFileProcessing]
    decide
  have h2 : isWarningEv (statusFileProcessingComplete (processedOf req env)) = false := by
    simp only [isWarningEv, statusFileProcessingComplete]
    decide
  unfold fileStageEvents
  split_ifs <;> simp [List.countP_cons, h1, h2]

/-- The orchestrator itself emits no `warning` event on any path: every
warning in a stream was forwarded from the execution backend's chunks.  (The
source's only `warning` emitter, orchestrator.py 72-74, is unreachable:
`gather(..., return_exceptions=True)` returns task exceptions as values.) -/
theorem countP_warning_orchestrate (req : IncomingRequest) (env : OrchEnv) :
    (orchestrate_request req env).countP isWarningEv
      = (execChunksOf req env).countP isWarningEv := by
  have hs1 : isWarningEv statusRouting = false := by decide
  have hs2 : ∀ d, isWarningEv (statusRoutingComplete d) = false := by
    intro d
    simp only [isWarningEv, statusRoutingComplete]
    decide
  have herr : ∀ m, isWarningEv (errorEvent m) = false := by
    intro m
    simp only [isWarningEv, errorEvent]
    decide
  have hdone : isWarningEv doneEvent = false := by decide
  have hexec : ∀ d, (execEvents d env).countP isWarningEv
      = (match d.route with
         | Route.llm => env.llmChunks
         | Route.comfy => env.comfyChunks).countP isWarningEv := by
    intro d
    unfold execEvents
    cases d.route with
    | llm =>
      cases env.llmFail with
      | none => simp
      | some m => simp [List.countP_append, List.countP_cons, herr]
    | comfy =>
      cases env.comfyFail with
      | none => simp
      | some m => simp [List.countP_append, List.countP_cons, herr]
  unfold orchestrate_request
  rw [List.countP_append, List.countP_append, List.countP_append]
  rw [countP_warning_fileStage, hexec]
  simp [List.countP_cons, hs1, hs2, hdone, execChunksOf]

/-- C3 (amended).  When exactly one of the two fan-out adapter calls fails
outright — the document-extraction call (first conjunct) or the
media-recognition call (second conjunct) — the pipeline emits NO `warning`
event — the failure is only logged, because the `except` that would emit
one cannot fire past `gather(..., return_exceptions=True)` — the other
call's ProcessedFile results are still the whole merged result, and the
pipeline still advances to the Routing stage. -/
theorem C3_adapter_failure_amended (u t : Str) (f : FileReference)
    (fs : List FileReference) (m : Str) (tika vision : FileReference → Option Str)
    (routing : Option RoutingDecision) (lc : List Event) (lf : Option Str)
    (cc : List Event) (cf : Option Str) :
    ((orchestrate_request ⟨u, t, f :: fs⟩
        ⟨some m, tika, none, vision, routing, lc, lf, cc, cf⟩).countP isWarningEv
      = (execChunksOf ⟨u, t, f :: fs⟩
          ⟨some m, tika, none, vision, routing, lc, lf, cc, cf⟩).countP isWarningEv
    ∧ processedOf ⟨u, t, f :: fs⟩ ⟨some m, tika, none, vision, routing, lc, lf, cc, cf⟩
        = recognize_multimodal_files u (f :: fs) vision
    ∧ statusRouting ∈ orchestrate_request ⟨u, t, f :: fs⟩
        ⟨some m, tika, none, vision, routing, lc, lf, cc, cf⟩)
    ∧ ((orchestrate_request ⟨u, t, f :: fs⟩
        ⟨none, tika, some m, vision, routing, lc, lf, cc, cf⟩).countP isWarningEv
      = (execChunksOf ⟨u, t, f :: fs⟩
          ⟨none, tika, some m, vision, routing, lc, lf, cc, cf⟩).countP isWarningEv
    ∧ processedOf ⟨u, t, f :: fs⟩ ⟨none, tika, some m, vision, routing, lc, lf, cc, cf⟩
        = extract_text_from_documents u (f :: fs) tika
    ∧ statusRouting ∈ orchestrate_request ⟨u, t, f :: fs⟩
        ⟨none, tika, some m, vision, routing, lc, lf, cc, cf⟩) := by
  refine ⟨⟨countP_warning_orchestrate _ _, ?_, ?_⟩,
          ⟨countP_warning_orchestrate _ _, ?_, ?_⟩⟩
  · simp [processedOf, tikaPart, visionPart]
  · simp [orchestrate_request]
  · simp [processedOf, tikaPart, visionPart]
  · simp [orchestrate_request]

/-- C3 counterexample.  Two qualifying documents and one qualifying image,
with the extraction backend call failing as a whole and recognition
succeeding: the stream carries zero `warning` events (the claim demands
exactly one), while the image still yields its ProcessedFile. -/
theorem C3_adapter_failure_counterexample :
    (orchestrate_request
        ⟨sl "u1", sl "hi",
         [⟨sl "a.pdf", sl "/download/a.pdf", sl "application/pdf"⟩,
          ⟨sl "b.txt", sl "/download/b.txt", sl "text/plain"⟩,
          ⟨sl "i.png", sl "/download/i.png", sl "image/png"⟩]⟩
        ⟨some (sl "connection refused"), fun _ => none, none,
         fun _ => some (sl "на изображении кот"), none, [], none, [], none⟩).countP isWarningEv
      = 0
    ∧ ¬ ((orchestrate_request
        ⟨sl "u1", sl "hi",
         [⟨sl "a.pdf", sl "/download/a.pdf", sl "application/pdf"⟩,
          ⟨sl "b.txt", sl "/download/b.txt", sl "text/plain"⟩,
          ⟨sl "i.png", sl "/download/i.png", sl "image/png"⟩]⟩
        ⟨some (sl "connection refused"), fun _ => none, none,
         fun _ => some (sl "на изображении кот"), none, [], none, [], none⟩).countP isWarningEv
      = 1)
    ∧ processedOf
        ⟨sl "u1", sl "hi",
         [⟨sl "a.pdf", sl "/download/a.pdf", sl "application/pdf"⟩,
          ⟨sl "b.txt", sl "/download/b.txt", sl "text/plain"⟩,
          ⟨sl "i.png", sl "/download/i.png", sl "image/png"⟩]⟩
        ⟨some (sl "connection refused"), fun _ => none, none,
         fun _ => some (sl "на изображении кот"), none, [], none, [], none⟩
      = [⟨sl "i.png", sl "image/png", sl "на изображении кот", .qwen3vl⟩] := by
  refine ⟨by decide, by decide, by decide⟩

/-- C9 (confirmed).  A request with an empty file list skips the fan-out
stage entirely: no file-processing events, no warning, no ProcessedFile, and
the stream starts directly with the Routing-stage status event. -/
theorem C9_no_files_skips_fanout (u t : Str) (env : OrchEnv) :
    orchestrate_request ⟨u, t, []⟩ env
      = statusRouting
          :: statusRoutingComplete (route_request u t [] env.routing)
          :: (execEvents (route_request u t [] env.routing) env ++ [doneEvent])
    ∧ processedOf ⟨u, t, []⟩ env = []
    ∧ fileStageEvents ⟨u, t, []⟩ env = []
    ∧ (orchestrate_request ⟨u, t, []⟩ env).head? = some statusRouting := by
  have h1 : processedOf ⟨u, t, []⟩ env = [] := by simp [processedOf]
  have h2 : fileStageEvents ⟨u, t, []⟩ env = [] := by simp [fileStageEvents]
  have h3 : orchestrate_request ⟨u, t, []⟩ env
      = statusRouting
          :: statusRoutingComplete (route_request u t [] env.routing)
          :: (execEvents (route_request u t [] env.routing) env ++ [doneEvent]) := by
    unfold orchestrate_request
    rw [h2, h1]
    simp
  exact ⟨h3, h1, h2, by rw [h3]; rfl⟩

/-!
## Gateway relay (api_gateway)

`stream_from_orchestrator` (src/api_gateway/app/services.py 120-163): with
the orchestrator URL configured it opens the inner stream and yields every
non-empty chunk verbatim (`async for chunk ...: if chunk: yield chunk`);
with no URL, or when an exception interrupts the relay, it yields one
fabricated `data: {'error': ...}` line — a data-only line with no `event:`
field and single-quoted, non-JSON content.  The inner stream is the
orchestrator's event list; `fail = some (k, m)` models an exception raised
after `k` chunks were delivered.

The `warning`-prefix code of `stream_request` (main.py 101-129) cannot run:
that function contains both `yield` and `return StreamingResponse(...)`,
which makes it an async generator with a valued `return` — a Python
`SyntaxError` — so no warning prefix (and no other prefix) is ever
delivered, and no `meta` event exists anywhere in the gateway. -/

inductive GwChunk where
  | ev : Event → GwChunk
  | rawData : Str → GwChunk
deriving DecidableEq

def stream_from_orchestrator (cfg : Bool) (inner : List Event)
    (fail : Option (Nat × Str)) : List GwChunk :=
  if ¬cfg then [.rawData (sl "\x7b'error': 'ORCHESTRATOR_URL не настроен'\x7d")]
  else
    match fail with
    | none => inner.map .ev
    | some (k, m) =>
      (inner.take k).map .ev
        ++ [.rawData (sl "\x7b'error': 'Ошибка при стриминге от Orchestrator: " ++ m ++ sl "'\x7d")]

def isMetaChunk : GwChunk → Bool
  | .ev e => e.1 == sl "meta"
  | .rawData _ => false

def isMetaEv (e : Event) : Bool := e.1 == sl "meta"

/-- C8 (amended).  The gateway relay forwards the orchestrator's event
stream unmodified — on the success path its output IS the inner stream,
chunk for chunk, with nothing prepended, no buffering and no reordering —
and on every path it adds no `meta` event: whatever `meta` chunks appear
were already in the inner stream.  (No `meta` event exists in the codebase,
and the intended warning prefix of `stream_request` sits in syntactically
invalid generator code, so nothing is ever prepended.) -/
theorem C8_gateway_forwards_unmodified (inner : List Event) :
    stream_from_orchestrator true inner none = inner.map GwChunk.ev
    ∧ ∀ (cfg : Bool) (fail : Option (Nat × Str)),
        (stream_from_orchestrator cfg inner fail).countP isMetaChunk
          ≤ inner.countP isMetaEv := by
  constructor
  · simp [stream_from_orchestrator]
  · intro cfg fail
    cases cfg with
    | false => simp [stream_from_orchestrator, List.countP_cons, isMetaChunk]
    | true =>
      have hfun : (isMetaChunk ∘ GwChunk.ev) = isMetaEv := funext (fun e => rfl)
      cases fail with
      | none =>
        rw [show stream_from_orchestrator true inner none = inner.map GwChunk.ev from by
          simp [stream_from_orchestrator]]
        rw [List.countP_map, hfun]
      | some km =>
        obtain ⟨k, m⟩ := km
        rw [show stream_from_orchestrator true inner (some (k, m))
              = (inner.take k).map .ev
                ++ [.rawData (sl "\x7b'error': 'Ошибка при стриминге от Orchestrator: "
                    ++ m ++ sl "'\x7d")] from by
          simp [stream_from_orchestrator]]
        rw [List.countP_append, List.countP_map, hfun]
        have h1 : ((inner.take k).countP isMetaEv) ≤ inner.countP isMetaEv :=
          (List.take_sublist k inner).countP_le _
        have h2 : ([GwChunk.rawData (sl "\x7b'error': 'Ошибка при стриминге от Orchestrator: "
            ++ m ++ sl "'\x7d")] : List GwChunk).countP isMetaChunk = 0 := by
          simp [List.countP_cons, isMetaChunk]
        omega

/-- C8 counterexample.  A concrete successfully relayed stream (a text
response and the terminal `done`) contains zero `meta` events, refuting the
claim that the relay prepends exactly one `meta` event carrying the user id
and file count. -/
theorem C8_gateway_counterexample :
    (stream_from_orchestrator true [respTextEvent (sl "hi"), doneEvent] none).countP
        isMetaChunk = 0
    ∧ ¬ ((stream_from_orchestrator true [respTextEvent (sl "hi"), doneEvent] none).countP
        isMetaChunk = 1) := by
  exact ⟨by decide, by decide⟩

/-!
## Telegram stream consumer (telegram_bot)

`StreamAccumulator` (src/telegram_bot/app/streaming.py 9-67) and the event
dispatch of `stream_response_to_telegram` (70-145), modelled over decoded
events (the line-to-event decoding is `decodeSSE` above).  Each accumulator
operation returns the new buffer and the list of messages it sent.
`current_message_id` is bookkeeping never read elsewhere.  Telegram send
calls are modelled as succeeding: `_send_buffer` guards its send with
`try/except` (a failure is only logged), while a transport failure of the
unguarded `send_photo`/`send_message` calls would abort the loop through
the `finally` flush — a network failure mode outside this embedding. -/

/-- Model of `_send_buffer` (39-67): on a non-empty buffer, split once at `"\n\n"`,
strip the first part, send it when non-empty, and keep the remainder (or
nothing) buffered. -/
def sendBuffer (b : Str) : Str × List Str :=
  if b = [] then (b, [])
  else
    match splitOnceNN b with
    | some pr => (pr.2, if strip pr.1 = [] then [] else [strip pr.1])
    | none => ([], if strip b = [] then [] else [strip b])

/-- Model of `add_chunk` (22-32): append, and send the buffer once when it now
contains `"\n\n"`. -/
def add_chunk (b : Str) (t : Str) : Str × List Str :=
  if containsNN (b ++ t) then sendBuffer (b ++ t) else (b ++ t, [])

/-- Model of `flush` (34-37): send the remainder when the buffer is non-empty. -/
def flushAcc (b : Str) : Str × List Str :=
  if b = [] then (b, []) else sendBuffer b

/-- What the consumer hands to the user: an accumulator text message, a
photo, or the error text sent directly by the `error` branch. -/
inductive Deliverable where
  | msg : Str → Deliverable
  | photo : Option Str → Option Str → Deliverable
  | errText : Str → Deliverable
deriving DecidableEq

/-- First-match lookup in a JSON object (Python `dict` keys are unique). -/
def jobjGet : Jobj → Str → Option Jval
  | .onil, _ => none
  | .ocons k v t, key => if k = key then some v else jobjGet t key

/-- Python `data.get(key)` returning a string value, `none` otherwise. -/
def getStrField (p : Jval) (key : Str) : Option Str :=
  match p with
  | .jo o =>
    (match jobjGet o key with
     | some (.js s) => some s
     | _ => none)
  | _ => none

/-- The event dispatch loop of `stream_response_to_telegram` (101-145) over
decoded events: `response`/`text` feeds the accumulator; `response`/`image`
flushes then sends the photo; any other `response` type falls through the
dispatch and is ignored (the source handles only `"text"` and `"image"`);
`status` is logged only; `error` flushes then sends the error text
(`f"❌ Ошибка: {data.get('message')}"`, which renders a missing message as
`"None"`); `done` flushes, breaks, and the `finally` flushes once more,
ignoring everything after it; an exhausted stream ends through the
`finally` flush. -/
def consumeEvents : List Event → Str → List Deliverable
  | [], b => (flushAcc b).2.map .msg
  | (ty, p) :: rest, b =>
    if ty = sl "response" then
      (if getStrField p (sl "type") = some (sl "text") then
        (add_chunk b ((getStrField p (sl "content")).getD [])).2.map .msg
          ++ consumeEvents rest (add_chunk b ((getStrField p (sl "content")).getD [])).1
      else if getStrField p (sl "type") = some (sl "image") then
        (flushAcc b).2.map .msg
          ++ (.photo (getStrField p (sl "url")) (getStrField p (sl "caption"))
            :: consumeEvents rest (flushAcc b).1)
      else consumeEvents rest b)
    else if ty = sl "status" then consumeEvents rest b
    else if ty = sl "error" then
      (flushAcc b).2.map .msg
        ++ (.errText (sl "❌ Ошибка: " ++ ((getStrField p (sl "message")).getD (sl "None")))
          :: consumeEvents rest (flushAcc b).1)
    else if ty = sl "done" then
      (flushAcc b).2.map .msg ++ ((flushAcc (flushAcc b).1).2.map .msg)
    else consumeEvents rest b

/-- A fresh consumer run over a full event sequence. -/
def consume (evs : List Event) : List Deliverable := consumeEvents evs []

theorem containsNN_of_decomp : ∀ (pre rest : Str), containsNN (pre ++ '\n' :: '\n' :: rest) = true := by
  intro pre
  induction pre with
  | nil => intro rest; rfl
  | cons p0 pre1 ih =>
    intro rest
    rw [List.cons_append]
    unfold containsNN
    rw [splitOnceNN.eq_def]
    split
    · rfl
    · rename_i c r heq
      injection heq with h1 h2
      subst h2
      have := ih rest
      unfold containsNN at this
      simp [Option.isSome_map, this]
    · rename_i heq
      exact absurd heq (by simp)

/-- The splitter of `_send_buffer` returns exactly the decomposition at the
FIRST occurrence of `"\n\n"`: the one whose prefix is shortest. -/
theorem splitOnceNN_of_minimal : ∀ (pre s rest : Str),
    s = pre ++ '\n' :: '\n' :: rest →
    (∀ pre2 rest2, s = pre2 ++ '\n' :: '\n' :: rest2 → pre.length ≤ pre2.length) →
    splitOnceNN s = some (pre, rest) := by
  intro pre
  induction pre with
  | nil =>
    intro s rest hdec _
    subst hdec
    rfl
  | cons p0 pre1 ih =>
    intro s rest hdec hmin
    subst hdec
    rw [List.cons_append, splitOnceNN.eq_def]
    split
    · rename_i r heq
      exfalso
      have h0 : (p0 :: pre1).length ≤ ([] : Str).length := by
        apply hmin [] r
        rw [List.cons_append, heq]
        rfl
      simp at h0
    · rename_i c r heq
      injection heq with h1 h2
      subst h1
      subst h2
      rw [ih (pre1 ++ '\n' :: '\n' :: rest) rest rfl (by
        intro pre2 rest2 h
        have := hmin (p0 :: pre2) rest2 (by rw [List.cons_append, h, List.cons_append])
        simpa using this)]
      rfl
    · rename_i heq
      exact absurd heq (by simp)

/-- C5 (amended).  After adding a textual chunk, whenever the buffer holds
`"\n\n"`, everything up to and including the FIRST occurrence is removed
from the buffer; the segment before the boundary is stripped of surrounding
whitespace and sent as one deliverable message when non-empty after
stripping (a whitespace-only segment is dropped without a message); the
remainder stays buffered.  The claim's scenario holds as stated:
`response(text, "a\n\n")`, `response(text, "b")`, `done` delivers `"a"`
then `"b"`. -/
theorem C5_accumulator_boundary_flush :
    (∀ (b t pre rest : Str),
      b ++ t = pre ++ '\n' :: '\n' :: rest →
      (∀ pre2 rest2, b ++ t = pre2 ++ '\n' :: '\n' :: rest2 → pre.length ≤ pre2.length) →
      add_chunk b t = (rest, if strip pre = [] then [] else [strip pre]))
    ∧ consume [respTextEvent (sl "a\n\n"), respTextEvent (sl "b"), doneEvent]
        = [.msg (sl "a"), .msg (sl "b")] := by
  constructor
  · intro b t pre rest hdec hmin
    have hcon : containsNN (b ++ t) = true := by
      rw [hdec]
      exact containsNN_of_decomp pre rest
    have hsplit : splitOnceNN (b ++ t) = some (pre, rest) :=
      splitOnceNN_of_minimal pre (b ++ t) rest hdec hmin
    have hne : b ++ t ≠ [] := by
      rw [hdec]
      rcases pre with _ | ⟨c, cs⟩ <;> simp
    unfold add_chunk
    rw [if_pos hcon]
    unfold sendBuffer
    rw [if_neg hne, hsplit]
  · decide

/-- C5 witness: the boundary flush applied at buffer `""` and chunk
`"a\n\nb"`, whose unique minimal decomposition has prefix `"a"`. -/
theorem C5_accumulator_boundary_flush_witness :
    add_chunk [] (sl "a\n\nb") = (sl "b", [sl "a"]) := by
  have h := C5_accumulator_boundary_flush.1 [] (sl "a\n\nb") (sl "a") (sl "b")
    (by decide)
    (by
      intro pre2 rest2 h
      cases pre2 with
      | nil =>
        rw [List.nil_append] at h
        have h2 : ('a' :: sl "\n\nb" : Str) = '\n' :: '\n' :: rest2 := h
        injection h2 with hh _
        exact absurd hh (by decide)
      | cons c cs =>
        have hl : (sl "a").length = 1 := by decide
        simp [hl])
  rw [h]
  decide

/-- C6 (amended).  Only the `image` response type is special-cased: on a
`response` event whose payload type is `image` the accumulator buffer is
flushed once (one `_send_buffer` pass: the first boundary-delimited segment
is sent, any text after a boundary stays buffered) and the photo payload is
delivered right after; a `response` event of any other non-text type
(video, audio, document, ...) falls through the dispatch and is ignored
entirely — no flush, no delivery, accumulator state unchanged.  The claim's
image scenario holds: `response(text,"x")`, `response(image,url=U)`, `done`
delivers `"x"` and then the photo. -/
theorem C6_nontext_response_amended :
    (∀ (p : Jval) (b : Str) (rest : List Event),
      getStrField p (sl "type") = some (sl "image") →
      consumeEvents ((sl "response", p) :: rest) b
        = (flushAcc b).2.map .msg
          ++ (.photo (getStrField p (sl "url")) (getStrField p (sl "caption"))
            :: consumeEvents rest (flushAcc b).1))
    ∧ (∀ (p : Jval) (b : Str) (rest : List Event) (ty : Str),
      getStrField p (sl "type") = some ty →
      ty ≠ sl "text" → ty ≠ sl "image" →
      consumeEvents ((sl "response", p) :: rest) b = consumeEvents rest b)
    ∧ consume [respTextEvent (sl "x"),
        (sl "response", .jo (.ocons (sl "type") (.js (sl "image"))
          (.ocons (sl "url") (.js (sl "http://img"))
          (.ocons (sl "caption") (.js (sl "pic")) .onil)))), doneEvent]
      = [.msg (sl "x"), .photo (some (sl "http://img")) (some (sl "pic"))] := by
  refine ⟨?_, ?_, by decide⟩
  · intro p b rest h
    simp only [consumeEvents]
    rw [if_pos trivial, h,
        if_neg (show ¬ (some (sl "image") = some (sl "text")) from by decide),
        if_pos (show some (sl "image") = some (sl "image") from rfl)]
  · intro p b rest ty h h1 h2
    simp only [consumeEvents]
    rw [if_pos trivial, h,
        if_neg (show ¬ (some ty = some (sl "text")) from by simp [h1]),
        if_neg (show ¬ (some ty = some (sl "image")) from by simp [h2])]

/-- C6 witness: the image branch applied at payload
`{"type": "image", "url": "http://img", "caption": "pic"}` with pending
buffer `"x"`, and the ignore branch applied at a `video` payload. -/
theorem C6_nontext_response_witness :
    consumeEvents [(sl "response", .jo (.ocons (sl "type") (.js (sl "image"))
        (.ocons (sl "url") (.js (sl "http://img"))
        (.ocons (sl "caption") (.js (sl "pic")) .onil))))] (sl "x")
      = (flushAcc (sl "x")).2.map .msg
        ++ (.photo
            (getStrField (.jo (.ocons (sl "type") (.js (sl "image"))
              (.ocons (sl "url") (.js (sl "http://img"))
              (.ocons (sl "caption") (.js (sl "pic")) .onil)))) (sl "url"))
            (getStrField (.jo (.ocons (sl "type") (.js (sl "image"))
              (.ocons (sl "url") (.js (sl "http://img"))
              (.ocons (sl "caption") (.js (sl "pic")) .onil)))) (sl "caption"))
          :: consumeEvents [] (flushAcc (sl "x")).1)
    ∧ consumeEvents [(sl "response", .jo (.ocons (sl "type") (.js (sl "video"))
        (.ocons (sl "url") (.js (sl "http://v")) .onil)))] []
      = consumeEvents [] [] :=
  ⟨C6_nontext_response_amended.1 _ (sl "x") [] (by decide),
   C6_nontext_response_amended.2.1 _ [] [] (sl "video") (by decide) (by decide) (by decide)⟩

/-- C6 counterexample.  A `video` response event between buffered text and
`done` leaves no trace: the stream delivers only the text (at `done`), with
no flush at the video's position and no video payload delivered — refuting
the claim that every non-textual response type flushes pending text and
delivers its payload. -/
theorem C6_nontext_response_counterexample :
    consume [respTextEvent (sl "x"),
      (sl "response", .jo (.ocons (sl "type") (.js (sl "video"))
        (.ocons (sl "url") (.js (sl "http://v")) .onil))), doneEvent]
      = [.msg (sl "x")] := by
  decide

theorem stripIf_mem (s : Str) (m : Str)
    (hm : m ∈ (if strip s = [] then ([] : List Str) else [strip s])) :
    m ≠ [] ∧ strip m = m := by
  by_cases h : strip s = []
  · rw [if_pos h] at hm
    simp at hm
  · rw [if_neg h] at hm
    simp only [List.mem_singleton] at hm
    subst hm
    exact ⟨h, strip_idem s⟩

theorem sendBuffer_msgs (b : Str) (m : Str) (hm : m ∈ (sendBuffer b).2) :
    m ≠ [] ∧ strip m = m := by
  unfold sendBuffer at hm
  by_cases h : b = []
  · rw [if_pos h] at hm
    simp at hm
  · rw [if_neg h] at hm
    cases hs : splitOnceNN b with
    | some pr =>
      rw [hs] at hm
      exact stripIf_mem pr.1 m hm
    | none =>
      rw [hs] at hm
      exact stripIf_mem b m hm

theorem flushAcc_msgs (b : Str) (m : Str) (hm : m ∈ (flushAcc b).2) :
    m ≠ [] ∧ strip m = m := by
  unfold flushAcc at hm
  by_cases h : b = []
  · rw [if_pos h] at hm
    simp at hm
  · rw [if_neg h] at hm
    exact sendBuffer_msgs b m hm

theorem add_chunk_msgs (b t : Str) (m : Str) (hm : m ∈ (add_chunk b t).2) :
    m ≠ [] ∧ strip m = m := by
  unfold add_chunk at hm
  by_cases h : containsNN (b ++ t) = true
  · rw [if_pos h] at hm
    exact sendBuffer_msgs (b ++ t) m hm
  · rw [if_neg h] at hm
    simp at hm

theorem consumeEvents_msgs : ∀ (evs : List Event) (b : Str) (m : Str),
    Deliverable.msg m ∈ consumeEvents evs b → m ≠ [] ∧ strip m = m := by
  intro evs
  induction evs with
  | nil =>
    intro b m hm
    simp only [consumeEvents, List.mem_map] at hm
    obtain ⟨a, ha, heq⟩ := hm
    injection heq with heq
    subst heq
    exact flushAcc_msgs b a ha
  | cons e rest ih =>
    obtain ⟨ty, p⟩ := e
    intro b m hm
    simp only [consumeEvents] at hm
    split_ifs at hm
    · rcases List.mem_append.mp hm with hmm | hmm
      · obtain ⟨a, ha, heq⟩ := List.mem_map.mp hmm
        injection heq with heq
        subst heq
        exact add_chunk_msgs b _ a ha
      · exact ih _ _ hmm
    · rcases List.mem_append.mp hm with hmm | hmm
      · obtain ⟨a, ha, heq⟩ := List.mem_map.mp hmm
        injection heq with heq
        subst heq
        exact flushAcc_msgs b a ha
      · rcases List.mem_cons.mp hmm with hmm2 | hmm2
        · exact absurd hmm2 (by simp)
        · exact ih _ _ hmm2
    · exact ih _ _ hm
    · exact ih _ _ hm
    · rcases List.mem_append.mp hm with hmm | hmm
      · obtain ⟨a, ha, heq⟩ := List.mem_map.mp hmm
        injection heq with heq
        subst heq
        exact flushAcc_msgs b a ha
      · rcases List.mem_cons.mp hmm with hmm2 | hmm2
        · exact absurd hmm2 (by simp)
        · exact ih _ _ hmm2
    · rcases List.mem_append.mp hm with hmm | hmm
      · obtain ⟨a, ha, heq⟩ := List.mem_map.mp hmm
        injection heq with heq
        subst heq
        exact flushAcc_msgs b a ha
      · obtain ⟨a, ha, heq⟩ := List.mem_map.mp hmm
        injection heq with heq
        subst heq
        exact flushAcc_msgs _ a ha
    · exact ih _ _ hm

/-- The first boundary-delimited segment of the buffer: what one
`_send_buffer` pass strips and considers sending. -/
def firstSegment (b : Str) : Str :=
  match splitOnceNN b with
  | some pr => pr.1
  | none => b

/-- C10 (confirmed).  Every deliverable text message the accumulator emits
is non-empty and carries no leading or trailing whitespace (stripping it
again changes nothing), and one `_send_buffer` pass sends exactly the
stripped first segment when that is non-empty and nothing at all when the
segment is empty or whitespace-only. -/
theorem C10_deliverable_text_stripped :
    (∀ (evs : List Event) (m : Str),
      Deliverable.msg m ∈ consume evs → m ≠ [] ∧ strip m = m)
    ∧ ∀ b : Str, (sendBuffer b).2
        = (if strip (firstSegment b) = [] then [] else [strip (firstSegment b)]) := by
  constructor
  · intro evs m hm
    exact consumeEvents_msgs evs [] m hm
  · intro b
    unfold sendBuffer firstSegment
    by_cases h : b = []
    · subst h
      rfl
    · rw [if_neg h]
      cases hs : splitOnceNN b with
      | some pr => rfl
      | none => rfl

/-- C10 witness: the run feeding `" a\n\nb"` then `done` delivers the
stripped message `"a"`; the theorem certifies it non-empty and stripped. -/
theorem C10_deliverable_text_stripped_witness :
    Deliverable.msg (sl "a") ∈ consume [respTextEvent (sl " a\n\nb"), doneEvent]
    ∧ (sl "a" ≠ [] ∧ strip (sl "a") = sl "a") :=
  ⟨by decide,
   C10_deliverable_text_stripped.1 [respTextEvent (sl " a\n\nb"), doneEvent] (sl "a")
     (by decide)⟩

/-- C5 counterexample.  At buffer `""` and chunk `"a \n\nb"` the buffer
contains the boundary and everything up to it is removed, but the delivered
message is the stripped `"a"`, not the claim's "everything up to the first
occurrence" `"a "`; for a whitespace-only segment (chunk `"\n\nb"`) no
deliverable message is produced at all. -/
theorem C5_accumulator_counterexample :
    add_chunk [] (sl "a \n\nb") = (sl "b", [sl "a"])
    ∧ sl "a" ≠ sl "a "
    ∧ add_chunk [] (sl "\n\nb") = (sl "b", []) := by
  refine ⟨by decide, by decide, by decide⟩
